import Mathlib

/-
Verification of the node-map construction (flattening) engine of the
`json-ld` repository, together with its small value types
(`LangString`, `Version`).

The Rust sources embedded here:
  * `core/src/flattening/node_map.rs` — `ConflictingIndexes`, `NodeMap`,
    `NodeMapGraph` (`declare_node`, `merge_node`, `merge_with`), the
    iterators, `generate_node_map` and the recursive
    `extend_node_map` / `extend_node_map_from_node` traversal;
  * `core/src/lang_string.rs` — `LangString`;
  * `syntax/src/context/definition/version.rs` — `Version`.

Identifiers (`Reference<T>`) are modelled as strings (the valid variant;
the invalid variant is diagnostic-only and never enters a graph store).
Hash maps are modelled as association lists compared through lookup;
hash sets as duplicate-free lists under structural equality.
The expanded object tree (`Indexed<Object>`, `Node`, …) from
`core/src/object/` is not part of the provided sources; its shape is
reproduced from the spec's data model (§3) as a mutual inductive family
with explicit list types so that all recursion stays structural.
-/

namespace JsonLd

mutual

/-- Expanded object: a literal value (opaque, copied verbatim), a list,
or a node object. Mirrors `Object<T, M>` as described by spec §3. -/
inductive Obj : Type where
  | value (v : String)
  | list (items : ObjList)
  | node (n : Node0)

/-- An object together with its optional index string.
Mirrors `Indexed<Object<T, M>>`. -/
inductive IxObj : Type where
  | mk (inner : Obj) (index : Option String)

/-- A sequence of indexed objects (`Vec<Indexed<Object>>` / the members of
a graph-content set). -/
inductive ObjList : Type where
  | nil
  | cons (head : IxObj) (tail : ObjList)

/-- Optional nested-graph content of a node (`Option` of a collection of
indexed objects). -/
inductive GraphContent : Type where
  | none
  | some (content : ObjList)

/-- A node record: canonical id, type list, nested graph content,
included content, forward properties and reverse properties.
Mirrors `Node<T, M>` as described by spec §3. -/
inductive Node0 : Type where
  | mk (id : Option String) (types : List String)
       (graph : GraphContent) (included : IncludedContent)
       (props : PropList) (rev : RevList)

/-- A node together with its optional index string
(`Indexed<Node<T, M>>`). -/
inductive IxNode : Type where
  | mk (inner : Node0) (index : Option String)

/-- A sequence of indexed nodes. -/
inductive NodeList : Type where
  | nil
  | cons (head : IxNode) (tail : NodeList)

/-- Optional included content of a node (`Option` of a collection of
indexed nodes). -/
inductive IncludedContent : Type where
  | none
  | some (content : NodeList)

/-- Forward properties: mapping from property id to an ordered sequence
of objects (`Properties<T, M>`). -/
inductive PropList : Type where
  | nil
  | cons (prop : String) (values : ObjList) (tail : PropList)

/-- Reverse properties: mapping from property id to an ordered sequence
of subject nodes (`ReverseProperties<T, M>`). -/
inductive RevList : Type where
  | nil
  | cons (prop : String) (subjects : NodeList) (tail : RevList)

end

mutual

/-- Structural equality test on objects. -/
def objBeq : Obj → Obj → Bool
  | .value a, .value b => a == b
  | .list a, .list b => objListBeq a b
  | .node a, .node b => nodeBeq a b
  | _, _ => false
termination_by structural x => x

/-- Structural equality test on indexed objects. -/
def iobjBeq : IxObj → IxObj → Bool
  | .mk a ia, .mk b ib => objBeq a b && ia == ib
termination_by structural x => x

/-- Structural equality test on object sequences. -/
def objListBeq : ObjList → ObjList → Bool
  | .nil, .nil => true
  | .cons a as, .cons b bs => iobjBeq a b && objListBeq as bs
  | _, _ => false
termination_by structural x => x

/-- Structural equality test on optional graph content. -/
def graphContentBeq : GraphContent → GraphContent → Bool
  | .none, .none => true
  | .some a, .some b => objListBeq a b
  | _, _ => false
termination_by structural x => x

/-- Structural equality test on node records. -/
def nodeBeq : Node0 → Node0 → Bool
  | .mk i t g inc ps rv, .mk i' t' g' inc' ps' rv' =>
    i == i' && t == t' && graphContentBeq g g' && includedContentBeq inc inc'
      && propListBeq ps ps' && revListBeq rv rv'
termination_by structural x => x

/-- Structural equality test on indexed nodes. -/
def inodeBeq : IxNode → IxNode → Bool
  | .mk a ia, .mk b ib => nodeBeq a b && ia == ib
termination_by structural x => x

/-- Structural equality test on node sequences. -/
def nodeListBeq : NodeList → NodeList → Bool
  | .nil, .nil => true
  | .cons a as, .cons b bs => inodeBeq a b && nodeListBeq as bs
  | _, _ => false
termination_by structural x => x

/-- Structural equality test on optional included content. -/
def includedContentBeq : IncludedContent → IncludedContent → Bool
  | .none, .none => true
  | .some a, .some b => nodeListBeq a b
  | _, _ => false
termination_by structural x => x

/-- Structural equality test on forward-property maps. -/
def propListBeq : PropList → PropList → Bool
  | .nil, .nil => true
  | .cons p vs as, .cons q ws bs => p == q && objListBeq vs ws && propListBeq as bs
  | _, _ => false
termination_by structural x => x

/-- Structural equality test on reverse-property maps. -/
def revListBeq : RevList → RevList → Bool
  | .nil, .nil => true
  | .cons p vs as, .cons q ws bs => p == q && nodeListBeq vs ws && revListBeq as bs
  | _, _ => false
termination_by structural x => x

end

set_option maxHeartbeats 1600000 in
mutual

theorem objBeq_iff : ∀ a b : Obj, objBeq a b = true ↔ a = b
  | .value _, .value _ => by simp [objBeq]
  | .value _, .list _ => by simp [objBeq]
  | .value _, .node _ => by simp [objBeq]
  | .list _, .value _ => by simp [objBeq]
  | .list a, .list b => by simp [objBeq, objListBeq_iff a b]
  | .list _, .node _ => by simp [objBeq]
  | .node _, .value _ => by simp [objBeq]
  | .node _, .list _ => by simp [objBeq]
  | .node a, .node b => by simp [objBeq, nodeBeq_iff a b]

theorem iobjBeq_iff : ∀ a b : IxObj, iobjBeq a b = true ↔ a = b
  | .mk a _, .mk b _ => by simp [iobjBeq, objBeq_iff a b]

theorem objListBeq_iff : ∀ a b : ObjList, objListBeq a b = true ↔ a = b
  | .nil, .nil => by simp [objListBeq]
  | .nil, .cons _ _ => by simp [objListBeq]
  | .cons _ _, .nil => by simp [objListBeq]
  | .cons a as, .cons b bs => by
    simp [objListBeq, iobjBeq_iff a b, objListBeq_iff as bs]

theorem graphContentBeq_iff : ∀ a b : GraphContent, graphContentBeq a b = true ↔ a = b
  | .none, .none => by simp [graphContentBeq]
  | .none, .some _ => by simp [graphContentBeq]
  | .some _, .none => by simp [graphContentBeq]
  | .some a, .some b => by simp [graphContentBeq, objListBeq_iff a b]

theorem nodeBeq_iff : ∀ a b : Node0, nodeBeq a b = true ↔ a = b
  | .mk _ _ g inc ps rv, .mk _ _ g' inc' ps' rv' => by
    simp [nodeBeq, graphContentBeq_iff g g', includedContentBeq_iff inc inc',
      propListBeq_iff ps ps', revListBeq_iff rv rv', and_assoc]

theorem inodeBeq_iff : ∀ a b : IxNode, inodeBeq a b = true ↔ a = b
  | .mk a _, .mk b _ => by simp [inodeBeq, nodeBeq_iff a b]

theorem nodeListBeq_iff : ∀ a b : NodeList, nodeListBeq a b = true ↔ a = b
  | .nil, .nil => by simp [nodeListBeq]
  | .nil, .cons _ _ => by simp [nodeListBeq]
  | .cons _ _, .nil => by simp [nodeListBeq]
  | .cons a as, .cons b bs => by
    simp [nodeListBeq, inodeBeq_iff a b, nodeListBeq_iff as bs]

theorem includedContentBeq_iff : ∀ a b : IncludedContent, includedContentBeq a b = true ↔ a = b
  | .none, .none => by simp [includedContentBeq]
  | .none, .some _ => by simp [includedContentBeq]
  | .some _, .none => by simp [includedContentBeq]
  | .some a, .some b => by simp [includedContentBeq, nodeListBeq_iff a b]

theorem propListBeq_iff : ∀ a b : PropList, propListBeq a b = true ↔ a = b
  | .nil, .nil => by simp [propListBeq]
  | .nil, .cons _ _ _ => by simp [propListBeq]
  | .cons _ _ _, .nil => by simp [propListBeq]
  | .cons _ vs as, .cons _ ws bs => by
    simp [propListBeq, objListBeq_iff vs ws, propListBeq_iff as bs, and_assoc]

theorem revListBeq_iff : ∀ a b : RevList, revListBeq a b = true ↔ a = b
  | .nil, .nil => by simp [revListBeq]
  | .nil, .cons _ _ _ => by simp [revListBeq]
  | .cons _ _ _, .nil => by simp [revListBeq]
  | .cons _ vs as, .cons _ ws bs => by
    simp [revListBeq, nodeListBeq_iff vs ws, revListBeq_iff as bs, and_assoc]

end

instance : DecidableEq Obj := fun a b => decidable_of_iff _ (objBeq_iff a b)

instance : DecidableEq IxObj := fun a b => decidable_of_iff _ (iobjBeq_iff a b)

instance : DecidableEq ObjList := fun a b => decidable_of_iff _ (objListBeq_iff a b)

instance : DecidableEq GraphContent := fun a b => decidable_of_iff _ (graphContentBeq_iff a b)

instance : DecidableEq Node0 := fun a b => decidable_of_iff _ (nodeBeq_iff a b)

instance : DecidableEq IxNode := fun a b => decidable_of_iff _ (inodeBeq_iff a b)

instance : DecidableEq NodeList := fun a b => decidable_of_iff _ (nodeListBeq_iff a b)

instance : DecidableEq IncludedContent := fun a b => decidable_of_iff _ (includedContentBeq_iff a b)

instance : DecidableEq PropList := fun a b => decidable_of_iff _ (propListBeq_iff a b)

instance : DecidableEq RevList := fun a b => decidable_of_iff _ (revListBeq_iff a b)

end JsonLd

namespace JsonLd

/-- Inner object of an indexed object. -/
def IxObj.inner : IxObj → Obj
  | .mk o _ => o

/-- Index string of an indexed object (`Indexed::index`). -/
def IxObj.index : IxObj → Option String
  | .mk _ i => i

/-- Inner node of an indexed node. -/
def IxNode.inner : IxNode → Node0
  | .mk n _ => n

/-- Index string of an indexed node (`Indexed::index`). -/
def IxNode.index : IxNode → Option String
  | .mk _ i => i

/-- Identifier of a node (`Node::id`). -/
def Node0.id : Node0 → Option String
  | .mk i _ _ _ _ _ => i

/-- Type list of a node (`Node::types`). -/
def Node0.types : Node0 → List String
  | .mk _ t _ _ _ _ => t

/-- Nested-graph content of a node (`Node::graph`). -/
def Node0.graph : Node0 → GraphContent
  | .mk _ _ g _ _ _ => g

/-- Included content of a node (`Node::included`). -/
def Node0.included : Node0 → IncludedContent
  | .mk _ _ _ inc _ _ => inc

/-- Forward properties of a node (`Node::properties`). -/
def Node0.props : Node0 → PropList
  | .mk _ _ _ _ ps _ => ps

/-- Reverse properties of a node (`Node::reverse_properties`). -/
def Node0.rev : Node0 → RevList
  | .mk _ _ _ _ _ rv => rv

/-- Fresh node holding only an identifier (`Node::with_id`). -/
def Node0.withId (i : String) : Node0 :=
  .mk (Option.some i) [] .none .none .nil .nil

/-- Replace the type list of a node (`Node::set_types`). -/
def Node0.setTypes : Node0 → List String → Node0
  | .mk i _ g inc ps rv, t => .mk i t g inc ps rv

/-- Replace the nested-graph content of a node (`Node::set_graph`). -/
def Node0.setGraphContent : Node0 → GraphContent → Node0
  | .mk i t _ inc ps rv, g => .mk i t g inc ps rv

/-- Replace the included content of a node (`Node::set_included`). -/
def Node0.setIncluded : Node0 → IncludedContent → Node0
  | .mk i t g _ ps rv, inc => .mk i t g inc ps rv

/-- Replace the forward properties of a node. -/
def Node0.setProps : Node0 → PropList → Node0
  | .mk i t g inc _ rv, ps => .mk i t g inc ps rv

/-- Replace the reverse properties of a node. -/
def Node0.setRev : Node0 → RevList → Node0
  | .mk i t g inc ps _, rv => .mk i t g inc ps rv

/-- Replace the index of an indexed node (`Indexed::set_index`). -/
def IxNode.setIndex : IxNode → Option String → IxNode
  | .mk n _, i => .mk n i

/-- Apply a function to the inner node of an indexed node, keeping the
index (mutation through the `&mut Indexed<Node>` handle). -/
def IxNode.modifyInner (f : Node0 → Node0) : IxNode → IxNode
  | .mk n i => .mk (f n) i

/-- Membership test in an object sequence (structural equality, as used
by `HashSet`/unique insertion). -/
def objListMemB : ObjList → IxObj → Bool
  | .nil, _ => false
  | .cons a as, x => iobjBeq a x || objListMemB as x

/-- Membership test in a node sequence. -/
def nodeListMemB : NodeList → IxNode → Bool
  | .nil, _ => false
  | .cons a as, x => inodeBeq a x || nodeListMemB as x

/-- Append an object at the end of a sequence. -/
def objListApp : ObjList → IxObj → ObjList
  | .nil, x => .cons x .nil
  | .cons a as, x => .cons a (objListApp as x)

/-- Set insertion into an object sequence: append the object unless it is
already present (models `HashSet::insert` under structural equality). -/
def objListInsertNoDup (l : ObjList) (x : IxObj) : ObjList :=
  if objListMemB l x then l else objListApp l x

/-- Union of two object sequences as sets (models `HashSet::extend`). -/
def objListUnion : ObjList → ObjList → ObjList
  | acc, .nil => acc
  | acc, .cons x xs => objListUnion (objListInsertNoDup acc x) xs

/-- Lookup of the value sequence bound to a property
(`Properties::get`). -/
def propFind? : PropList → String → Option ObjList
  | .nil, _ => Option.none
  | .cons p vs rest, q => if p = q then Option.some vs else propFind? rest q

/-- Whether the forward-property map binds `v` under `p`
(`Properties::contains`). -/
def propHasEdgeB (ps : PropList) (p : String) (v : IxObj) : Bool :=
  match propFind? ps p with
  | Option.some vs => objListMemB vs v
  | Option.none => false

/-- Append `v` to the sequence bound to `p`, creating the binding if
absent. -/
def propAddValue : PropList → String → IxObj → PropList
  | .nil, p, v => .cons p (.cons v .nil) .nil
  | .cons q ws rest, p, v =>
    if q = p then .cons q (objListApp ws v) rest
    else .cons q ws (propAddValue rest p v)

/-- Modelled from the spec: `Properties::insert_unique` of
`core/src/object/node/properties.rs` (not under the provided sources).
Per §4.2, properties are merged "with unique-by-(property, value)
insertion, preserving relative order, without removing existing
entries": the value is appended under the property unless the exact
(property, value) pair is already bound. -/
def propInsertUnique (ps : PropList) (p : String) (v : IxObj) : PropList :=
  if propHasEdgeB ps p v then ps else propAddValue ps p v

/-- Modelled from the spec: `Properties::insert_all_unique` — unique
insertion of each value of a sequence, in order. -/
def propInsertAllUnique : PropList → String → ObjList → PropList
  | ps, _, .nil => ps
  | ps, p, .cons v vs => propInsertAllUnique (propInsertUnique ps p v) p vs

/-- Modelled from the spec: `Properties::extend_unique` — unique
insertion of every (property, value) pair of the second map into the
first, in order. -/
def propExtendUnique : PropList → PropList → PropList
  | ps, .nil => ps
  | ps, .cons p vs rest => propExtendUnique (propInsertAllUnique ps p vs) rest

/-- Lookup of the subject sequence bound to a reverse property. -/
def revFind? : RevList → String → Option NodeList
  | .nil, _ => Option.none
  | .cons p vs rest, q => if p = q then Option.some vs else revFind? rest q

/-- Whether the reverse-property map binds subject `v` under `p`. -/
def revHasEdgeB (ps : RevList) (p : String) (v : IxNode) : Bool :=
  match revFind? ps p with
  | Option.some vs => nodeListMemB vs v
  | Option.none => false

/-- Append a node at the end of a sequence. -/
def nodeListApp : NodeList → IxNode → NodeList
  | .nil, x => .cons x .nil
  | .cons a as, x => .cons a (nodeListApp as x)

/-- Append a subject to the sequence bound to `p`, creating the binding
if absent. -/
def revAddValue : RevList → String → IxNode → RevList
  | .nil, p, v => .cons p (.cons v .nil) .nil
  | .cons q ws rest, p, v =>
    if q = p then .cons q (nodeListApp ws v) rest
    else .cons q ws (revAddValue rest p v)

/-- Modelled from the spec: unique insertion into a reverse-property
map (the reverse-property analogue of `Properties::insert_unique`). -/
def revInsertUnique (ps : RevList) (p : String) (v : IxNode) : RevList :=
  if revHasEdgeB ps p v then ps else revAddValue ps p v

/-- Modelled from the spec: unique insertion of each subject of a
sequence under `p`, in order. -/
def revInsertAllUnique : RevList → String → NodeList → RevList
  | ps, _, .nil => ps
  | ps, p, .cons v vs => revInsertAllUnique (revInsertUnique ps p v) p vs

/-- Modelled from the spec: unique insertion of every (property,
subject) pair of the second reverse-property map into the first. -/
def revExtendUnique : RevList → RevList → RevList
  | ps, .nil => ps
  | ps, .cons p vs rest => revExtendUnique (revInsertAllUnique ps p vs) rest

end JsonLd

namespace JsonLd

/-- The `ConflictingIndexes` error of `node_map.rs`: the node id, the
stored index and the conflicting supplied index. -/
structure ConflictingIndexes where
  node_id : String
  defined_index : String
  conflicting_index : String
  deriving DecidableEq

/-- A graph store: mapping from node id to indexed node record
(`NodeMapGraph`, backed by a `HashMap` modelled as an association
list). -/
abbrev NodeMapGraph := List (String × IxNode)

/-- Record lookup in a graph store (`NodeMapGraph::get`). -/
def gFind? : NodeMapGraph → String → Option IxNode
  | [], _ => Option.none
  | (k, r) :: rest, i => if k = i then Option.some r else gFind? rest i

/-- Whether the graph store holds a record for `i`
(`NodeMapGraph::contains`). -/
def gContains (g : NodeMapGraph) (i : String) : Bool :=
  (gFind? g i).isSome

/-- Insert a fresh binding (used only when the key is absent;
`HashMap::insert`). -/
def gInsert (g : NodeMapGraph) (i : String) (r : IxNode) : NodeMapGraph :=
  (i, r) :: g

/-- Update the record bound to `i` in place (mutation through the
`&mut` handle returned by `get_mut`). Leaves the store unchanged when
the key is absent. -/
def gModify : NodeMapGraph → String → (IxNode → IxNode) → NodeMapGraph
  | [], _, _ => []
  | (k, r) :: rest, i, f =>
    if k = i then (k, f r) :: gModify rest i f else (k, r) :: gModify rest i f

/-- `NodeMapGraph::declare_node`, translated statement by statement with
the mutable store threaded explicitly: the second component is the
error of the `Result`, the first component is the store after the
call (`self`). In the conflict branch the Rust function returns
`Err(ConflictingIndexes {..})` before performing any write. -/
def declareNode (g : NodeMapGraph) (id : String) (index : Option String) :
    NodeMapGraph × Option ConflictingIndexes :=
  match gFind? g id with
  | Option.some entry =>
    match entry.index, index with
    | Option.some entryIndex, Option.some i =>
      if entryIndex ≠ i then
        (g, Option.some ⟨id, entryIndex, i⟩)
      else
        (g, Option.none)
    | Option.none, Option.some i =>
      (gModify g id (fun r => r.setIndex (Option.some i)), Option.none)
    | _, _ => (g, Option.none)
  | Option.none =>
    (gInsert g id (IxNode.mk (Node0.withId id) index), Option.none)

/-- The content-merging tail of `NodeMapGraph::merge_node`, acting on
the `flat_node` handle: append the incoming types after the existing
ones, overwrite graph and included content, and merge forward and
reverse properties with unique insertion. -/
def mergeContent (node : Node0) (r : IxNode) : IxNode :=
  IxNode.modifyInner (fun x =>
    ((((x.setTypes (x.types ++ node.types)).setGraphContent
        node.graph).setIncluded
        node.included).setProps
        (propExtendUnique x.props node.props)).setRev
        (revExtendUnique x.rev node.rev)) r

/-- `NodeMapGraph::merge_node`: no-op when the node has no id;
otherwise create the target if absent (setting the incoming index),
overwrite the index if the incoming record carries one, append the
incoming types, overwrite graph and included content, and merge
forward and reverse properties with unique insertion
(`mergeContent` is the body acting on the `flat_node` handle). -/
def mergeNode (g : NodeMapGraph) (inode : IxNode) : NodeMapGraph :=
  let index := inode.index
  let node := inode.inner
  match node.id with
  | Option.none => g
  | Option.some id =>
    let g1 :=
      match gFind? g id with
      | Option.some _ =>
        match index with
        | Option.some i => gModify g id (fun r => r.setIndex (Option.some i))
        | Option.none => g
      | Option.none => gInsert g id (IxNode.mk (Node0.withId id) index)
    gModify g1 id (mergeContent node)

/-- `NodeMapGraph::merge_with`: apply `merge_node` to every record of
`other`, in iteration order. -/
def mergeWith : NodeMapGraph → NodeMapGraph → NodeMapGraph
  | g, [] => g
  | g, (_, n) :: rest => mergeWith (mergeNode g n) rest

/-- The node map: the default graph plus the named graphs
(`NodeMap`). -/
structure NodeMap where
  graphs : List (String × NodeMapGraph)
  default_graph : NodeMapGraph

/-- The empty node map (`NodeMap::new`). -/
def NodeMap.empty : NodeMap := ⟨[], []⟩

/-- Named-graph lookup in the association list of graphs. -/
def glFind? : List (String × NodeMapGraph) → String → Option NodeMapGraph
  | [], _ => Option.none
  | (k, g) :: rest, i => if k = i then Option.some g else glFind? rest i

/-- `NodeMap::graph`: the default graph under `None` (always present),
the named graph under `Some` when declared. -/
def NodeMap.graph (m : NodeMap) : Option String → Option NodeMapGraph
  | Option.none => Option.some m.default_graph
  | Option.some i => glFind? m.graphs i

/-- Update the graph selected by the optional id in place (the
`graph_mut(..).unwrap()` access pattern of the traversal). When a
named graph is absent the Rust code would panic on `unwrap`; that
path is unreachable in the traversal because `declare_graph` always
precedes, and is modelled as leaving the map unchanged. -/
def glModify : List (String × NodeMapGraph) → String →
    (NodeMapGraph → NodeMapGraph) → List (String × NodeMapGraph)
  | [], _, _ => []
  | (k, g) :: rest, i, f =>
    if k = i then (k, f g) :: glModify rest i f else (k, g) :: glModify rest i f

/-- Update the graph selected by the optional id in place (the
`graph_mut(..).unwrap()` access pattern of the traversal). When a
named graph is absent the Rust code would panic on `unwrap`; that
path is unreachable in the traversal because `declare_graph` always
precedes, and is modelled as leaving the map unchanged. -/
def NodeMap.modifyGraph (m : NodeMap) (ag : Option String)
    (f : NodeMapGraph → NodeMapGraph) : NodeMap :=
  match ag with
  | Option.none => ⟨m.graphs, f m.default_graph⟩
  | Option.some i => ⟨glModify m.graphs i f, m.default_graph⟩

/-- `NodeMap::declare_graph`: create an empty named graph when none
exists for the id; idempotent. -/
def NodeMap.declareGraph (m : NodeMap) (i : String) : NodeMap :=
  match glFind? m.graphs i with
  | Option.some _ => m
  | Option.none => ⟨(i, []) :: m.graphs, m.default_graph⟩

/-- Record lookup through the optional graph id. -/
def getRecord (m : NodeMap) (ag : Option String) (i : String) : Option IxNode :=
  match m.graph ag with
  | Option.some g => gFind? g i
  | Option.none => Option.none

/-- Update a record of the graph selected by the optional id. -/
def modifyRecord (m : NodeMap) (ag : Option String) (i : String)
    (f : IxNode → IxNode) : NodeMap :=
  m.modifyGraph ag (fun g => gModify g i f)

/-- Declare a node in the graph selected by the optional id, threading
the store (the `graph_mut(active_graph).unwrap().declare_node(..)`
step of the traversal). -/
def nmDeclareNode (m : NodeMap) (ag : Option String) (id : String)
    (index : Option String) : NodeMap × Option ConflictingIndexes :=
  match ag with
  | Option.none =>
    let (g', c) := declareNode m.default_graph id index
    (⟨m.graphs, g'⟩, c)
  | Option.some i =>
    match glFind? m.graphs i with
    | Option.some g =>
      let (g', c) := declareNode g id index
      (⟨glModify m.graphs i (fun _ => g'), m.default_graph⟩, c)
    | Option.none => (m, Option.none)

/-- Fold every named graph of the list into the accumulator graph via
`merge_with` (the loop body of `NodeMap::merge`). -/
def foldMergeGraphs : NodeMapGraph → List (String × NodeMapGraph) → NodeMapGraph
  | d, [] => d
  | d, (_, g) :: rest => foldMergeGraphs (mergeWith d g) rest

/-- `NodeMap::merge`: consume the map, folding every named graph into
the default graph. -/
def NodeMap.merge (m : NodeMap) : NodeMapGraph :=
  foldMergeGraphs m.default_graph m.graphs

/-- The iterator state of `Iter`/`IntoIter`: the not-yet-yielded
default graph and the remaining named graphs. -/
structure NMIter where
  dg : Option NodeMapGraph
  graphs : List (String × NodeMapGraph)

/-- `Iterator::next` of `Iter`/`IntoIter`: take the default graph first
(yielded under `None`), then the named graphs under `Some`. -/
def NMIter.next : NMIter → Option ((Option String × NodeMapGraph) × NMIter)
  | ⟨Option.some d, gs⟩ => Option.some ((Option.none, d), ⟨Option.none, gs⟩)
  | ⟨Option.none, []⟩ => Option.none
  | ⟨Option.none, (i, g) :: gs⟩ => Option.some ((Option.some i, g), ⟨Option.none, gs⟩)

/-- `NodeMap::iter` / `into_iter`: start with the default graph pending
and all named graphs remaining. -/
def NodeMap.iter (m : NodeMap) : NMIter :=
  ⟨Option.some m.default_graph, m.graphs⟩

/-- Remaining length of an iterator state (termination measure). -/
def NMIter.size (it : NMIter) : Nat :=
  (match it.dg with | Option.some _ => 1 | Option.none => 0) + it.graphs.length

/-- Exhaust the iterator through `next`, collecting the yielded items. -/
def NMIter.toList (it : NMIter) : List (Option String × NodeMapGraph) :=
  match h : it.next with
  | Option.none => []
  | Option.some (x, it') => x :: it'.toList
termination_by it.size
decreasing_by
  cases it with
  | mk dg gs =>
    cases dg with
    | some d => simp [NMIter.next] at h; simp [NMIter.size, ← h.2]
    | none =>
      cases gs with
      | nil => simp [NMIter.next] at h
      | cons hd tl =>
        simp [NMIter.next] at h
        simp [NMIter.size, ← h.2]

end JsonLd

namespace JsonLd

/-- Modelled from the spec: the Identifier Namespace of §4.1
(`flattening::Namespace`, whose source is not among the provided
files). `assign(None)` generates a fresh, previously-unused blank
identifier (the injected generator is modelled as a sequential
counter, one admissible instance); `assign(Some(valid id))` returns
the identifier unchanged. The invalid/unlabeled variant never reaches
a graph store and is not modelled. -/
structure Namespace where
  counter : Nat

/-- Modelled from the spec: `Namespace::assign_node_id` per §4.1. -/
def Namespace.assign (ns : Namespace) : Option String → String × Namespace
  | Option.none => ("_:b" ++ toString ns.counter, ⟨ns.counter + 1⟩)
  | Option.some r => (r, ns)

/-- Assign an identifier to each declared type, threading the
namespace (the `types().iter().map(|ty| assign_node_id(Some(ty)))`
step). -/
def Namespace.assignTypes (ns : Namespace) : List String → List String × Namespace
  | [] => ([], ns)
  | t :: ts =>
    let (t', ns1) := ns.assign (Option.some t)
    let (ts', ns2) := ns1.assignTypes ts
    (t' :: ts', ns2)

/-- The initial namespace of one flatten invocation. -/
def Namespace.init : Namespace := ⟨0⟩

/-- Traversal state: the identifier namespace and the node map,
threaded by exclusive access through the recursion. -/
structure St where
  ns : Namespace
  nm : NodeMap

instance : DecidableEq Namespace := fun a b =>
  decidable_of_iff (a.counter = b.counter) (by cases a; cases b; simp)

instance : DecidableEq NodeMap := fun a b =>
  decidable_of_iff (a.graphs = b.graphs ∧ a.default_graph = b.default_graph)
    (by cases a; cases b; simp)

instance : DecidableEq St := fun a b =>
  decidable_of_iff (a.ns = b.ns ∧ a.nm = b.nm) (by cases a; cases b; simp)


/-- Union the freshly collected nested-graph set into a record's stored
graph content: extend the stored set when present, otherwise set it
(the `match flat_node.graph_mut()` block of
`extend_node_map_from_node`). -/
def graphUnionRec (flatG : ObjList) (r : IxNode) : IxNode :=
  r.modifyInner (fun n =>
    match n.graph with
    | GraphContent.some stored => n.setGraphContent (GraphContent.some (objListUnion stored flatG))
    | GraphContent.none => n.setGraphContent (GraphContent.some flatG))

/-- Install the flattened objects of one forward property into a
record (`properties_mut().insert_all_unique(property, flat_objects)`). -/
def propsInsertAllRec (p : String) (vs : ObjList) (r : IxNode) : IxNode :=
  r.modifyInner (fun n => n.setProps (propInsertAllUnique n.props p vs))

/-- Install one forward edge into a record
(`properties_mut().insert_unique(property, value)`). -/
def propsInsertOneRec (p : String) (v : IxObj) (r : IxNode) : IxNode :=
  r.modifyInner (fun n => n.setProps (propInsertUnique n.props p v))

/-- Replace a record's type list
(`flat_node.set_types(..)` right after `declare_node`). -/
def setTypesRec (ts : List String) (r : IxNode) : IxNode :=
  r.modifyInner (fun n => n.setTypes ts)

mutual

/-- `extend_node_map`: flatten one element of the expanded document
into the node map under the active graph, returning the flattened
object. Values are copied verbatim, lists recurse member-wise in
order, nodes delegate to `extendNode` and wrap the reference. -/
def extendIxObj (st : St) (element : IxObj) (ag : Option String) :
    Except ConflictingIndexes (IxObj × St) :=
  match element with
  | .mk (.value v) idx => .ok (.mk (.value v) idx, st)
  | .mk (.list items) idx =>
    match extendObjList st items ag with
    | .error e => .error e
    | .ok (flat, st1) => .ok (.mk (.list flat) idx, st1)
  | .mk (.node n) idx =>
    match extendNode st n idx ag with
    | .error e => .error e
    | .ok (flatNode, st1) =>
      .ok (.mk (.node flatNode.inner) flatNode.index, st1)

/-- The member loop of the `Object::List` branch of `extend_node_map`:
flatten each member in original order. -/
def extendObjList (st : St) (items : ObjList) (ag : Option String) :
    Except ConflictingIndexes (ObjList × St) :=
  match items with
  | .nil => .ok (.nil, st)
  | .cons o rest =>
    match extendIxObj st o ag with
    | .error e => .error e
    | .ok (flat, st1) =>
      match extendObjList st1 rest ag with
      | .error e => .error e
      | .ok (flats, st2) => .ok (.cons flat flats, st2)

/-- `extend_node_map_from_node`: assign the canonical id, declare the
node in the active graph (a conflict aborts), store its resolved
types, process nested graph content, included nodes, forward
properties and reverse properties, and return a bare reference to the
canonical id. -/
def extendNode (st : St) (node : Node0) (index : Option String)
    (ag : Option String) : Except ConflictingIndexes (IxNode × St) :=
  match node with
  | .mk oid tys gr inc ps rv =>
    let (id, ns1) := st.ns.assign oid
    let (nm1, c) := nmDeclareNode st.nm ag id index
    match c with
    | Option.some e => .error e
    | Option.none =>
      let (tys', ns2) := ns1.assignTypes tys
      let st2 : St := ⟨ns2, modifyRecord nm1 ag id (setTypesRec tys')⟩
      match graphStep st2 gr id ag with
      | .error e => .error e
      | .ok st3 =>
        match includedStep st3 inc ag with
        | .error e => .error e
        | .ok st4 =>
          match extendPropList st4 ps id ag with
          | .error e => .error e
          | .ok st5 =>
            match extendRevList st5 rv id ag with
            | .error e => .error e
            | .ok st6 => .ok (.mk (Node0.withId id) Option.none, st6)

/-- The nested-graph block of `extend_node_map_from_node`: when the
node carries graph content, declare the named graph keyed by the
node's id, flatten every member with that id as the active graph
collecting a structurally deduplicated set, and union the set into
the record's stored graph content. -/
def graphStep (st : St) (gr : GraphContent) (id : String) (ag : Option String) :
    Except ConflictingIndexes St :=
  match gr with
  | .none => .ok st
  | .some content =>
    let nm1 := st.nm.declareGraph id
    match extendGraphList ⟨st.ns, nm1⟩ content id .nil with
    | .error e => .error e
    | .ok (flatG, st2) =>
      .ok ⟨st2.ns, modifyRecord st2.nm ag id (graphUnionRec flatG)⟩

/-- The member loop of the nested-graph block: flatten each member with
the node's id as the active graph and insert it into the collected
set (`flat_graph.insert(..)`). -/
def extendGraphList (st : St) (items : ObjList) (gid : String) (acc : ObjList) :
    Except ConflictingIndexes (ObjList × St) :=
  match items with
  | .nil => .ok (acc, st)
  | .cons o rest =>
    match extendIxObj st o (Option.some gid) with
    | .error e => .error e
    | .ok (flat, st1) =>
      extendGraphList st1 rest gid (objListInsertNoDup acc flat)

/-- The included block of `extend_node_map_from_node`: recursively
extend each included node under the same active graph, discarding the
returned references. -/
def includedStep (st : St) (inc : IncludedContent) (ag : Option String) :
    Except ConflictingIndexes St :=
  match inc with
  | .none => .ok st
  | .some content => extendIncludedList st content ag

/-- The member loop of the included block. -/
def extendIncludedList (st : St) (items : NodeList) (ag : Option String) :
    Except ConflictingIndexes St :=
  match items with
  | .nil => .ok st
  | .cons inode rest =>
    match inode with
    | .mk inner idx =>
      match extendNode st inner idx ag with
      | .error e => .error e
      | .ok (_, st1) => extendIncludedList st1 rest ag

/-- The forward-property loop of `extend_node_map_from_node`: for each
property, flatten its objects in order under the same active graph
and insert them all uniquely into the current node's record. -/
def extendPropList (st : St) (props : PropList) (selfId : String)
    (ag : Option String) : Except ConflictingIndexes St :=
  match props with
  | .nil => .ok st
  | .cons p vs rest =>
    match extendObjList st vs ag with
    | .error e => .error e
    | .ok (flatVs, st1) =>
      let nm2 := modifyRecord st1.nm ag selfId (propsInsertAllRec p flatVs)
      extendPropList ⟨st1.ns, nm2⟩ rest selfId ag

/-- The reverse-property loop of `extend_node_map_from_node`: for each
reverse property, process its subject sequence. -/
def extendRevList (st : St) (rev : RevList) (selfId : String)
    (ag : Option String) : Except ConflictingIndexes St :=
  match rev with
  | .nil => .ok st
  | .cons p subs rest =>
    match extendSubjList st p subs selfId ag with
    | .error e => .error e
    | .ok st1 => extendRevList st1 rest selfId ag

/-- The subject loop of one reverse property: recursively extend each
subject, then install a forward edge under the property from the
subject's record to a bare reference to the current node's id. The
Rust code unwraps the flattened subject's id, which is always
present; the impossible `None` case is modelled as skipping the
insertion. -/
def extendSubjList (st : St) (p : String) (subjects : NodeList)
    (selfId : String) (ag : Option String) : Except ConflictingIndexes St :=
  match subjects with
  | .nil => .ok st
  | .cons subj rest =>
    match subj with
    | .mk inner idx =>
      match extendNode st inner idx ag with
      | .error e => .error e
      | .ok (flatSubj, st1) =>
        match flatSubj.inner.id with
        | Option.some sid =>
          let nm2 := modifyRecord st1.nm ag sid
            (propsInsertOneRec p (IxObj.mk (Obj.node (Node0.withId selfId)) Option.none))
          extendSubjList ⟨st1.ns, nm2⟩ p rest selfId ag
        | Option.none => extendSubjList st1 p rest selfId ag

end

/-- The top-level loop of `generate_node_map`: extend the node map with
each top-level object of the expanded document, under no active
graph. -/
def processTop : St → List IxObj → Except ConflictingIndexes St
  | st, [] => .ok st
  | st, o :: rest =>
    match extendIxObj st o Option.none with
    | .error e => .error e
    | .ok (_, st1) => processTop st1 rest

/-- `ExpandedDocument::generate_node_map`: build a node map for the
document from a fresh namespace and an empty node map; the first
conflict aborts the whole call. -/
def generateNodeMap (doc : List IxObj) : Except ConflictingIndexes NodeMap :=
  match processTop ⟨Namespace.init, NodeMap.empty⟩ doc with
  | .error e => .error e
  | .ok st => .ok st.nm

end JsonLd

namespace JsonLd

/-- Reading direction of a language string (`Direction`, opaque here:
its two concrete variants play no role in the invariant). -/
inductive Direction : Type where
  | ltr
  | rtl
  deriving DecidableEq

/-- Error raised when something tried to build a language string
without language tag or direction (`InvalidLangString`). -/
inductive InvalidLangString : Type where
  | mk
  deriving DecidableEq

/-- A language string: content, optional (lenient) language tag and
optional direction (`LangString` of `lang_string.rs`; the lenient
language tag is opaque and modelled as a string). -/
structure LangString where
  data : String
  language : Option String
  direction : Option Direction
  deriving DecidableEq

/-- `LangString::new`: succeeds when a language tag or a direction is
present, otherwise hands the data string back as the error. -/
def LangString.new (data : String) (language : Option String)
    (direction : Option Direction) : Except String LangString :=
  if language.isSome || direction.isSome then
    .ok ⟨data, language, direction⟩
  else
    .error data

/-- `LangString::set_language`: succeeds (updating the language) when a
direction is set or a language is supplied. -/
def LangString.setLanguage (s : LangString) (language : Option String) :
    Except InvalidLangString LangString :=
  if s.direction.isSome || language.isSome then
    .ok ⟨s.data, language, s.direction⟩
  else
    .error .mk

/-- `LangString::set_direction`: succeeds (updating the direction) when
a direction is supplied or a language is set. -/
def LangString.setDirection (s : LangString) (direction : Option Direction) :
    Except InvalidLangString LangString :=
  if direction.isSome || s.language.isSome then
    .ok ⟨s.data, s.language, direction⟩
  else
    .error .mk

/-- `LangString::set`: set both fields at once; fails when both are
`None`. -/
def LangString.set (s : LangString) (language : Option String)
    (direction : Option Direction) : Except InvalidLangString LangString :=
  if direction.isSome || language.isSome then
    .ok ⟨s.data, language, direction⟩
  else
    .error .mk

/-- The invariant of a valid language string: a language tag or a
direction (or both) is present. -/
def LangString.valid (s : LangString) : Bool :=
  s.language.isSome || s.direction.isSome

/-- The `UnknownVersion` error of `version.rs`, carrying the offending
input string. -/
structure UnknownVersion where
  val : String
  deriving DecidableEq

/-- JSON-LD version number (`Version`): the only allowed value is
`1.1`. -/
inductive Version : Type where
  | V1_1
  deriving DecidableEq

/-- `Version::into_str`. -/
def Version.intoStr : Version → String
  | .V1_1 => "1.1"

/-- `Version::from_str` (the `FromStr` implementation): `Ok(V1_1)` on
the exact string `1.1`, `UnknownVersion` carrying the input
otherwise. -/
def Version.fromStr (s : String) : Except UnknownVersion Version :=
  if s = "1.1" then .ok .V1_1 else .error ⟨s⟩

end JsonLd

namespace JsonLd

theorem gFind?_gModify (g : NodeMapGraph) (i j : String) (f : IxNode → IxNode) :
    gFind? (gModify g i f) j =
      if j = i then (gFind? g j).map f else gFind? g j := by
  induction g with
  | nil => simp [gFind?, gModify]
  | cons kr rest ih =>
    obtain ⟨k, r⟩ := kr
    by_cases hk : k = i
    · subst hk
      by_cases hj : k = j
      · subst hj
        simp [gFind?, gModify]
      · simp [gFind?, gModify, hj, ih]
    · by_cases hj : k = j
      · subst hj
        simp [gFind?, gModify, hk]
      · simp [gFind?, gModify, hk, hj, ih]

theorem gFind?_gInsert_self (g : NodeMapGraph) (i : String) (r : IxNode) :
    gFind? (gInsert g i r) i = Option.some r := by
  simp [gFind?, gInsert]

theorem gFind?_gInsert_ne (g : NodeMapGraph) (i : String) (r : IxNode)
    (j : String) (h : j ≠ i) : gFind? (gInsert g i r) j = gFind? g j := by
  have hij : ¬ (i = j) := fun hh => h hh.symm
  simp [gFind?, gInsert, hij]

/-- C1: for every graph store, `declare_node(id, index)` returns the
`ConflictingIndexes{node_id, defined_index, conflicting_index}` error
exactly when a node with that id already exists, both the stored
index and the supplied index are present, and the two index strings
differ; declaring the same id again with an equal index succeeds as a
no-op, declaring with index `None` never changes the store (so never
clears a stored index), and declaring an absent id creates the node
with the supplied index. -/
theorem declare_node_conflict_iff (g : NodeMapGraph) (id : String)
    (index : Option String) :
    (∀ r ei ci, gFind? g id = Option.some r → r.index = Option.some ei →
      index = Option.some ci → ei ≠ ci →
      declareNode g id index = (g, Option.some ⟨id, ei, ci⟩))
    ∧ (∀ c, (declareNode g id index).2 = Option.some c →
      ∃ r ei ci, gFind? g id = Option.some r ∧ r.index = Option.some ei ∧
        index = Option.some ci ∧ ei ≠ ci ∧ c = ⟨id, ei, ci⟩)
    ∧ (∀ r ei, gFind? g id = Option.some r → r.index = Option.some ei →
      index = Option.some ei → declareNode g id index = (g, Option.none))
    ∧ (∀ r, gFind? g id = Option.some r → index = Option.none →
      declareNode g id index = (g, Option.none))
    ∧ (gFind? g id = Option.none →
      gFind? (declareNode g id index).1 id
          = Option.some (IxNode.mk (Node0.withId id) index)
      ∧ (declareNode g id index).2 = Option.none) := by
  refine ⟨?_, ?_, ?_, ?_, ?_⟩
  · intro r ei ci hf hi hx hne
    simp [declareNode, hf, hi, hx, hne]
  · intro c hc
    cases hf : gFind? g id with
    | none => simp [declareNode, hf] at hc
    | some r =>
      cases hi : r.index with
      | none =>
        cases hx : index with
        | none => simp [declareNode, hf, hi, hx] at hc
        | some i => simp [declareNode, hf, hi, hx] at hc
      | some ei =>
        cases hx : index with
        | none => simp [declareNode, hf, hi, hx] at hc
        | some ci =>
          by_cases hne : ei = ci
          · simp [declareNode, hf, hi, hx, hne] at hc
          · simp [declareNode, hf, hi, hx, hne] at hc
            exact ⟨r, ei, ci, rfl, hi, rfl, hne, hc.symm⟩
  · intro r ei hf hi hx
    simp [declareNode, hf, hi, hx]
  · intro r hf hx
    cases hi : r.index with
    | none => simp [declareNode, hf, hx, hi]
    | some ei => simp [declareNode, hf, hx, hi]
  · intro hf
    simp [declareNode, hf, gFind?_gInsert_self]

/-- Witness for C1 at a concrete store: a node `a` stored with index
`1`, redeclared with index `2`, produces exactly the conflict error;
redeclared with `1` it is a no-op. -/
theorem declare_node_conflict_iff_witness :
    declareNode [("a", IxNode.mk (Node0.withId "a") (Option.some "1"))] "a"
        (Option.some "2")
      = ([("a", IxNode.mk (Node0.withId "a") (Option.some "1"))],
          Option.some ⟨"a", "1", "2"⟩) :=
  (declare_node_conflict_iff
      [("a", IxNode.mk (Node0.withId "a") (Option.some "1"))] "a"
      (Option.some "2")).1
    (IxNode.mk (Node0.withId "a") (Option.some "1")) "1" "2"
    (by decide) (by decide) rfl (by decide)

/-- C8: whenever `declare_node` returns the `ConflictingIndexes` error
the graph store is left completely unchanged. -/
theorem declare_node_error_no_mutation (g : NodeMapGraph) (id : String)
    (index : Option String) (g' : NodeMapGraph) (c : ConflictingIndexes)
    (h : declareNode g id index = (g', Option.some c)) : g' = g := by
  cases hf : gFind? g id with
  | none => simp [declareNode, hf] at h
  | some r =>
    cases hi : r.index with
    | none =>
      cases hx : index with
      | none => simp [declareNode, hf, hi, hx] at h
      | some i => simp [declareNode, hf, hi, hx] at h
    | some ei =>
      cases hx : index with
      | none => simp [declareNode, hf, hi, hx] at h
      | some ci =>
        by_cases hne : ei = ci
        · simp [declareNode, hf, hi, hx, hne] at h
        · simp [declareNode, hf, hi, hx, hne] at h
          exact h.1.symm

/-- Witness for C8 at the concrete conflicting store of C1. -/
theorem declare_node_error_no_mutation_witness :
    ([("a", IxNode.mk (Node0.withId "a") (Option.some "1"))] : NodeMapGraph)
      = [("a", IxNode.mk (Node0.withId "a") (Option.some "1"))] :=
  declare_node_error_no_mutation
    [("a", IxNode.mk (Node0.withId "a") (Option.some "1"))] "a"
    (Option.some "2") _ ⟨"a", "1", "2"⟩ (by decide)

end JsonLd

namespace JsonLd

instance {ε α : Type} [DecidableEq ε] [DecidableEq α] : DecidableEq (Except ε α) := fun a b =>
  match a, b with
  | .error e, .error f => decidable_of_iff (e = f) (by simp)
  | .ok x, .ok y => decidable_of_iff (x = y) (by simp)
  | .error _, .ok _ => isFalse (fun h => Except.noConfusion h)
  | .ok _, .error _ => isFalse (fun h => Except.noConfusion h)

/-- C9: every successfully built or updated `LangString` satisfies the
invariant that its language tag or its direction (or both) is
present: `new` returns `Err` with the original data string when both
are `None`, and `set_language`, `set_direction` and `set` fail with
`InvalidLangString` (precisely when the update would leave both
fields `None`) rather than produce a state where both fields are
`None`. -/
theorem lang_string_invariant :
    (∀ d, LangString.new d Option.none Option.none = .error d)
    ∧ (∀ d l dir s, LangString.new d l dir = .ok s → s.valid = true)
    ∧ (∀ s l s', LangString.setLanguage s l = .ok s' → s'.valid = true)
    ∧ (∀ s l, LangString.setLanguage s l = .error .mk ↔
        l = Option.none ∧ s.direction = Option.none)
    ∧ (∀ s dir s', LangString.setDirection s dir = .ok s' → s'.valid = true)
    ∧ (∀ s dir, LangString.setDirection s dir = .error .mk ↔
        dir = Option.none ∧ s.language = Option.none)
    ∧ (∀ s l dir s', LangString.set s l dir = .ok s' → s'.valid = true)
    ∧ (∀ s l dir, LangString.set s l dir = .error .mk ↔
        l = Option.none ∧ dir = Option.none) := by
  refine ⟨?_, ?_, ?_, ?_, ?_, ?_, ?_, ?_⟩
  · intro d
    simp [LangString.new]
  · intro d l dir s h
    cases l <;> cases dir <;>
      simp [LangString.new] at h <;>
      simp [← h, LangString.valid]
  · intro s l s' h
    cases hd : s.direction <;> cases l <;>
      simp [LangString.setLanguage, hd] at h <;>
      simp [← h, LangString.valid, hd]
  · intro s l
    cases hd : s.direction <;> cases l <;>
      simp [LangString.setLanguage, hd]
  · intro s dir s' h
    cases hl : s.language <;> cases dir <;>
      simp [LangString.setDirection, hl] at h <;>
      simp [← h, LangString.valid, hl]
  · intro s dir
    cases hl : s.language <;> cases dir <;>
      simp [LangString.setDirection, hl]
  · intro s l dir s' h
    cases l <;> cases dir <;>
      simp [LangString.set] at h <;>
      simp [← h, LangString.valid]
  · intro s l dir
    cases l <;> cases dir <;> simp [LangString.set]

/-- Witness for C9: updating the language of a concrete valid language
string yields a valid language string. -/
theorem lang_string_invariant_witness :
    (LangString.mk "hello" (Option.some "fr") Option.none).valid = true :=
  lang_string_invariant.2.2.1
    (LangString.mk "hello" (Option.some "en") Option.none)
    (Option.some "fr")
    (LangString.mk "hello" (Option.some "fr") Option.none)
    (by decide)

/-- C10: `Version::from_str` returns `Ok` exactly on the input `1.1`
and the `UnknownVersion` error carrying the input string otherwise,
so `from_str` round-trips `into_str`. -/
theorem version_from_str_spec :
    Version.fromStr "1.1" = .ok Version.V1_1
    ∧ (∀ s, s ≠ "1.1" → Version.fromStr s = .error ⟨s⟩)
    ∧ (∀ v, Version.fromStr v.intoStr = .ok v) := by
  refine ⟨rfl, ?_, ?_⟩
  · intro s hs
    simp [Version.fromStr, hs]
  · intro v
    cases v
    rfl

/-- Witness for C10: a concrete unknown version string is rejected with
the error carrying it. -/
theorem version_from_str_spec_witness :
    Version.fromStr "1.0" = .error ⟨"1.0"⟩ :=
  version_from_str_spec.2.1 "1.0" (by decide)

theorem nmiter_toList_named (gs : List (String × NodeMapGraph)) :
    NMIter.toList ⟨Option.none, gs⟩
      = gs.map (fun p => (Option.some p.1, p.2)) := by
  induction gs with
  | nil =>
    rw [NMIter.toList]
    simp [NMIter.next]
  | cons hd tl ih =>
    obtain ⟨i, g⟩ := hd
    rw [NMIter.toList]
    simp [NMIter.next, ih]

/-- C7: iterating a node map yields the default graph exactly once, as
the first item, paired with `None`, followed by every named graph
paired with `Some` of its id. -/
theorem node_map_iter_spec (m : NodeMap) :
    m.iter.toList
      = (Option.none, m.default_graph)
          :: m.graphs.map (fun p => (Option.some p.1, p.2)) := by
  rw [NodeMap.iter, NMIter.toList]
  simp [NMIter.next, nmiter_toList_named]

end JsonLd

namespace JsonLd

theorem iobjBeq_refl (v : IxObj) : iobjBeq v v = true :=
  (iobjBeq_iff v v).mpr rfl

theorem inodeBeq_refl (v : IxNode) : inodeBeq v v = true :=
  (inodeBeq_iff v v).mpr rfl

theorem objListMemB_app : ∀ (l : ObjList) (v x : IxObj),
    objListMemB (objListApp l v) x = (objListMemB l x || iobjBeq v x)
  | .nil, v, x => by simp [objListApp, objListMemB]
  | .cons a as, v, x => by
    simp [objListApp, objListMemB, objListMemB_app as v x, Bool.or_assoc]

theorem nodeListMemB_app : ∀ (l : NodeList) (v x : IxNode),
    nodeListMemB (nodeListApp l v) x = (nodeListMemB l x || inodeBeq v x)
  | .nil, v, x => by simp [nodeListApp, nodeListMemB]
  | .cons a as, v, x => by
    simp [nodeListApp, nodeListMemB, nodeListMemB_app as v x, Bool.or_assoc]

theorem propHasEdgeB_addValue_self : ∀ (ps : PropList) (p : String) (v : IxObj),
    propHasEdgeB (propAddValue ps p v) p v = true
  | .nil, p, v => by
    simp [propAddValue, propHasEdgeB, propFind?, objListMemB, iobjBeq_refl]
  | .cons q ws rest, p, v => by
    by_cases hq : q = p
    · subst hq
      simp [propAddValue, propHasEdgeB, propFind?, objListMemB_app, iobjBeq_refl]
    · simpa [propAddValue, propHasEdgeB, propFind?, hq] using
        propHasEdgeB_addValue_self rest p v

theorem propHasEdgeB_addValue_mono :
    ∀ (ps : PropList) (p : String) (v : IxObj) (q : String) (w : IxObj),
      propHasEdgeB ps q w = true →
      propHasEdgeB (propAddValue ps p v) q w = true
  | .nil, p, v, q, w, h => by simp [propHasEdgeB, propFind?] at h
  | .cons s ws rest, p, v, q, w, h => by
    by_cases hs : s = p
    · subst hs
      by_cases hq : s = q
      · subst hq
        simp [propHasEdgeB, propFind?] at h
        simp [propAddValue, propHasEdgeB, propFind?, objListMemB_app, h]
      · simp [propHasEdgeB, propFind?, hq] at h
        simp [propAddValue, propHasEdgeB, propFind?, hq, h]
    · by_cases hq : s = q
      · subst hq
        simp [propHasEdgeB, propFind?] at h
        simp [propAddValue, propHasEdgeB, propFind?, hs, h]
      · simp [propHasEdgeB, propFind?, hq] at h
        have := propHasEdgeB_addValue_mono rest p v q w h
        simp [propAddValue, propHasEdgeB, propFind?, hs, hq] at this ⊢
        exact this

theorem propInsertUnique_of_present (ps : PropList) (p : String) (v : IxObj)
    (h : propHasEdgeB ps p v = true) : propInsertUnique ps p v = ps := by
  simp [propInsertUnique, h]

theorem propInsertUnique_self (ps : PropList) (p : String) (v : IxObj) :
    propHasEdgeB (propInsertUnique ps p v) p v = true := by
  by_cases h : propHasEdgeB ps p v = true
  · simp [propInsertUnique, h]
  · simp only [Bool.not_eq_true] at h
    simp [propInsertUnique, h, propHasEdgeB_addValue_self]

theorem propInsertUnique_mono (ps : PropList) (p : String) (v : IxObj)
    (q : String) (w : IxObj) (h : propHasEdgeB ps q w = true) :
    propHasEdgeB (propInsertUnique ps p v) q w = true := by
  by_cases hp : propHasEdgeB ps p v = true
  · simpa [propInsertUnique, hp] using h
  · simp only [Bool.not_eq_true] at hp
    simpa [propInsertUnique, hp] using propHasEdgeB_addValue_mono ps p v q w h

theorem propInsertAllUnique_mono :
    ∀ (vs : ObjList) (ps : PropList) (p q : String) (w : IxObj),
      propHasEdgeB ps q w = true →
      propHasEdgeB (propInsertAllUnique ps p vs) q w = true
  | .nil, ps, p, q, w, h => by simpa [propInsertAllUnique] using h
  | .cons v vs, ps, p, q, w, h => by
    simpa [propInsertAllUnique] using
      propInsertAllUnique_mono vs (propInsertUnique ps p v) p q w
        (propInsertUnique_mono ps p v q w h)

theorem propInsertAllUnique_covers :
    ∀ (vs : ObjList) (ps : PropList) (p : String) (v : IxObj),
      objListMemB vs v = true →
      propHasEdgeB (propInsertAllUnique ps p vs) p v = true
  | .nil, ps, p, v, h => by simp [objListMemB] at h
  | .cons w ws, ps, p, v, h => by
    simp only [objListMemB, Bool.or_eq_true] at h
    rcases h with h | h
    · have hw : w = v := (iobjBeq_iff w v).mp h
      subst hw
      simpa [propInsertAllUnique] using
        propInsertAllUnique_mono ws (propInsertUnique ps p w) p p w
          (propInsertUnique_self ps p w)
    · simpa [propInsertAllUnique] using
        propInsertAllUnique_covers ws (propInsertUnique ps p w) p v h

theorem propInsertAllUnique_of_allPresent :
    ∀ (vs : ObjList) (ps : PropList) (p : String),
      (∀ v, objListMemB vs v = true → propHasEdgeB ps p v = true) →
      propInsertAllUnique ps p vs = ps
  | .nil, ps, p, _ => by simp [propInsertAllUnique]
  | .cons w ws, ps, p, h => by
    have hw : propHasEdgeB ps p w = true :=
      h w (by simp [objListMemB, iobjBeq_refl])
    rw [propInsertAllUnique, propInsertUnique_of_present ps p w hw]
    exact propInsertAllUnique_of_allPresent ws ps p
      (fun v hv => h v (by simp [objListMemB, hv]))

/-- Whether some entry of the forward-property map (duplicate keys
included) binds `v` under `p`. -/
def propEdgeMemB : PropList → String → IxObj → Bool
  | .nil, _, _ => false
  | .cons q ws rest, p, v => (q == p && objListMemB ws v) || propEdgeMemB rest p v

theorem propExtendUnique_mono :
    ∀ (qs : PropList) (ps : PropList) (q : String) (w : IxObj),
      propHasEdgeB ps q w = true →
      propHasEdgeB (propExtendUnique ps qs) q w = true
  | .nil, ps, q, w, h => by simpa [propExtendUnique] using h
  | .cons p vs rest, ps, q, w, h => by
    simpa [propExtendUnique] using
      propExtendUnique_mono rest (propInsertAllUnique ps p vs) q w
        (propInsertAllUnique_mono vs ps p q w h)

theorem propExtendUnique_covers :
    ∀ (qs : PropList) (ps : PropList) (q : String) (w : IxObj),
      propEdgeMemB qs q w = true →
      propHasEdgeB (propExtendUnique ps qs) q w = true
  | .nil, ps, q, w, h => by simp [propEdgeMemB] at h
  | .cons p vs rest, ps, q, w, h => by
    simp only [propEdgeMemB, Bool.or_eq_true, Bool.and_eq_true] at h
    rcases h with ⟨hpq, hm⟩ | h
    · have hpq' : p = q := by simpa using hpq
      subst hpq'
      simpa [propExtendUnique] using
        propExtendUnique_mono rest (propInsertAllUnique ps p vs) p w
          (propInsertAllUnique_covers vs ps p w hm)
    · simpa [propExtendUnique] using
        propExtendUnique_covers rest (propInsertAllUnique ps p vs) q w h

theorem propExtendUnique_of_allPresent :
    ∀ (qs : PropList) (ps : PropList),
      (∀ q w, propEdgeMemB qs q w = true → propHasEdgeB ps q w = true) →
      propExtendUnique ps qs = ps
  | .nil, ps, _ => by simp [propExtendUnique]
  | .cons p vs rest, ps, h => by
    have hall : ∀ v, objListMemB vs v = true → propHasEdgeB ps p v = true :=
      fun v hv => h p v (by simp [propEdgeMemB, hv])
    rw [propExtendUnique, propInsertAllUnique_of_allPresent vs ps p hall]
    exact propExtendUnique_of_allPresent rest ps
      (fun q w hw => h q w (by simp [propEdgeMemB, hw]))

theorem propExtendUnique_idem (ps qs : PropList) :
    propExtendUnique (propExtendUnique ps qs) qs = propExtendUnique ps qs :=
  propExtendUnique_of_allPresent qs (propExtendUnique ps qs)
    (fun q w hw => propExtendUnique_covers qs ps q w hw)

end JsonLd

namespace JsonLd

theorem revHasEdgeB_addValue_self : ∀ (ps : RevList) (p : String) (v : IxNode),
    revHasEdgeB (revAddValue ps p v) p v = true
  | .nil, p, v => by
    simp [revAddValue, revHasEdgeB, revFind?, nodeListMemB, inodeBeq_refl]
  | .cons q ws rest, p, v => by
    by_cases hq : q = p
    · subst hq
      simp [revAddValue, revHasEdgeB, revFind?, nodeListMemB_app, inodeBeq_refl]
    · simpa [revAddValue, revHasEdgeB, revFind?, hq] using
        revHasEdgeB_addValue_self rest p v

theorem revHasEdgeB_addValue_mono :
    ∀ (ps : RevList) (p : String) (v : IxNode) (q : String) (w : IxNode),
      revHasEdgeB ps q w = true →
      revHasEdgeB (revAddValue ps p v) q w = true
  | .nil, p, v, q, w, h => by simp [revHasEdgeB, revFind?] at h
  | .cons s ws rest, p, v, q, w, h => by
    by_cases hs : s = p
    · subst hs
      by_cases hq : s = q
      · subst hq
        simp [revHasEdgeB, revFind?] at h
        simp [revAddValue, revHasEdgeB, revFind?, nodeListMemB_app, h]
      · simp [revHasEdgeB, revFind?, hq] at h
        simp [revAddValue, revHasEdgeB, revFind?, hq, h]
    · by_cases hq : s = q
      · subst hq
        simp [revHasEdgeB, revFind?] at h
        simp [revAddValue, revHasEdgeB, revFind?, hs, h]
      · simp [revHasEdgeB, revFind?, hq] at h
        have := revHasEdgeB_addValue_mono rest p v q w h
        simp [revAddValue, revHasEdgeB, revFind?, hs, hq] at this ⊢
        exact this

theorem revInsertUnique_of_present (ps : RevList) (p : String) (v : IxNode)
    (h : revHasEdgeB ps p v = true) : revInsertUnique ps p v = ps := by
  simp [revInsertUnique, h]

theorem revInsertUnique_self (ps : RevList) (p : String) (v : IxNode) :
    revHasEdgeB (revInsertUnique ps p v) p v = true := by
  by_cases h : revHasEdgeB ps p v = true
  · simp [revInsertUnique, h]
  · simp only [Bool.not_eq_true] at h
    simp [revInsertUnique, h, revHasEdgeB_addValue_self]

theorem revInsertUnique_mono (ps : RevList) (p : String) (v : IxNode)
    (q : String) (w : IxNode) (h : revHasEdgeB ps q w = true) :
    revHasEdgeB (revInsertUnique ps p v) q w = true := by
  by_cases hp : revHasEdgeB ps p v = true
  · simpa [revInsertUnique, hp] using h
  · simp only [Bool.not_eq_true] at hp
    simpa [revInsertUnique, hp] using revHasEdgeB_addValue_mono ps p v q w h

theorem revInsertAllUnique_mono :
    ∀ (vs : NodeList) (ps : RevList) (p q : String) (w : IxNode),
      revHasEdgeB ps q w = true →
      revHasEdgeB (revInsertAllUnique ps p vs) q w = true
  | .nil, ps, p, q, w, h => by simpa [revInsertAllUnique] using h
  | .cons v vs, ps, p, q, w, h => by
    simpa [revInsertAllUnique] using
      revInsertAllUnique_mono vs (revInsertUnique ps p v) p q w
        (revInsertUnique_mono ps p v q w h)

theorem revInsertAllUnique_covers :
    ∀ (vs : NodeList) (ps : RevList) (p : String) (v : IxNode),
      nodeListMemB vs v = true →
      revHasEdgeB (revInsertAllUnique ps p vs) p v = true
  | .nil, ps, p, v, h => by simp [nodeListMemB] at h
  | .cons w ws, ps, p, v, h => by
    simp only [nodeListMemB, Bool.or_eq_true] at h
    rcases h with h | h
    · have hw : w = v := (inodeBeq_iff w v).mp h
      subst hw
      simpa [revInsertAllUnique] using
        revInsertAllUnique_mono ws (revInsertUnique ps p w) p p w
          (revInsertUnique_self ps p w)
    · simpa [revInsertAllUnique] using
        revInsertAllUnique_covers ws (revInsertUnique ps p w) p v h

theorem revInsertAllUnique_of_allPresent :
    ∀ (vs : NodeList) (ps : RevList) (p : String),
      (∀ v, nodeListMemB vs v = true → revHasEdgeB ps p v = true) →
      revInsertAllUnique ps p vs = ps
  | .nil, ps, p, _ => by simp [revInsertAllUnique]
  | .cons w ws, ps, p, h => by
    have hw : revHasEdgeB ps p w = true :=
      h w (by simp [nodeListMemB, inodeBeq_refl])
    rw [revInsertAllUnique, revInsertUnique_of_present ps p w hw]
    exact revInsertAllUnique_of_allPresent ws ps p
      (fun v hv => h v (by simp [nodeListMemB, hv]))

/-- Whether some entry of the reverse-property map (duplicate keys
included) binds subject `v` under `p`. -/
def revEdgeMemB : RevList → String → IxNode → Bool
  | .nil, _, _ => false
  | .cons q ws rest, p, v => (q == p && nodeListMemB ws v) || revEdgeMemB rest p v

theorem revExtendUnique_mono :
    ∀ (qs : RevList) (ps : RevList) (q : String) (w : IxNode),
      revHasEdgeB ps q w = true →
      revHasEdgeB (revExtendUnique ps qs) q w = true
  | .nil, ps, q, w, h => by simpa [revExtendUnique] using h
  | .cons p vs rest, ps, q, w, h => by
    simpa [revExtendUnique] using
      revExtendUnique_mono rest (revInsertAllUnique ps p vs) q w
        (revInsertAllUnique_mono vs ps p q w h)

theorem revExtendUnique_covers :
    ∀ (qs : RevList) (ps : RevList) (q : String) (w : IxNode),
      revEdgeMemB qs q w = true →
      revHasEdgeB (revExtendUnique ps qs) q w = true
  | .nil, ps, q, w, h => by simp [revEdgeMemB] at h
  | .cons p vs rest, ps, q, w, h => by
    simp only [revEdgeMemB, Bool.or_eq_true, Bool.and_eq_true] at h
    rcases h with ⟨hpq, hm⟩ | h
    · have hpq' : p = q := by simpa using hpq
      subst hpq'
      simpa [revExtendUnique] using
        revExtendUnique_mono rest (revInsertAllUnique ps p vs) p w
          (revInsertAllUnique_covers vs ps p w hm)
    · simpa [revExtendUnique] using
        revExtendUnique_covers rest (revInsertAllUnique ps p vs) q w h

theorem revExtendUnique_of_allPresent :
    ∀ (qs : RevList) (ps : RevList),
      (∀ q w, revEdgeMemB qs q w = true → revHasEdgeB ps q w = true) →
      revExtendUnique ps qs = ps
  | .nil, ps, _ => by simp [revExtendUnique]
  | .cons p vs rest, ps, h => by
    have hall : ∀ v, nodeListMemB vs v = true → revHasEdgeB ps p v = true :=
      fun v hv => h p v (by simp [revEdgeMemB, hv])
    rw [revExtendUnique, revInsertAllUnique_of_allPresent vs ps p hall]
    exact revExtendUnique_of_allPresent rest ps
      (fun q w hw => h q w (by simp [revEdgeMemB, hw]))

theorem revExtendUnique_idem (ps qs : RevList) :
    revExtendUnique (revExtendUnique ps qs) qs = revExtendUnique ps qs :=
  revExtendUnique_of_allPresent qs (revExtendUnique ps qs)
    (fun q w hw => revExtendUnique_covers qs ps q w hw)

end JsonLd

namespace JsonLd

theorem IxNode.setIndex_inner (r : IxNode) (x : Option String) :
    (r.setIndex x).inner = r.inner := by
  cases r
  rfl

theorem mergeContent_inner_props (node : Node0) (r : IxNode) :
    (mergeContent node r).inner.props = propExtendUnique r.inner.props node.props := by
  cases r with
  | mk x ix => cases x; rfl

theorem mergeContent_inner_rev (node : Node0) (r : IxNode) :
    (mergeContent node r).inner.rev = revExtendUnique r.inner.rev node.rev := by
  cases r with
  | mk x ix => cases x; rfl

theorem gFind?_mergeNode_ne (g : NodeMapGraph) (n : IxNode) (i id : String)
    (hn : n.inner.id = Option.some id) (hi : i ≠ id) :
    gFind? (mergeNode g n) i = gFind? g i := by
  cases hf : gFind? g id with
  | some r0 =>
    cases hx : n.index with
    | some ix => simp [mergeNode, hn, hf, hx, gFind?_gModify, hi]
    | none => simp [mergeNode, hn, hf, hx, gFind?_gModify, hi]
  | none =>
    simp [mergeNode, hn, hf, gFind?_gModify, hi, gFind?_gInsert_ne g id _ i hi]

theorem gFind?_mergeNode_self (g : NodeMapGraph) (n : IxNode) (id : String)
    (hn : n.inner.id = Option.some id) :
    gFind? (mergeNode g n) id =
      Option.some (mergeContent n.inner
        (match gFind? g id, n.index with
          | Option.some r0, Option.some ix => r0.setIndex (Option.some ix)
          | Option.some r0, Option.none => r0
          | Option.none, _ => IxNode.mk (Node0.withId id) n.index)) := by
  cases hf : gFind? g id with
  | some r0 =>
    cases hx : n.index with
    | some ix => simp [mergeNode, hn, hf, hx, gFind?_gModify]
    | none => simp [mergeNode, hn, hf, hx, gFind?_gModify]
  | none =>
    cases hx : n.index with
    | some ix =>
      simp [mergeNode, hn, hf, hx, gFind?_gModify, gFind?_gInsert_self]
    | none =>
      simp [mergeNode, hn, hf, hx, gFind?_gModify, gFind?_gInsert_self]

/-- C6: applying `merge_node` twice with an identical input node leaves
every record's forward-property and reverse-property content exactly
as after the first application: the second application adds no new
(property, value) edge beyond those present after the first. -/
theorem merge_node_twice_adds_nothing (g : NodeMapGraph) (n : IxNode) (i : String) :
    (gFind? (mergeNode (mergeNode g n) n) i).map (fun r => r.inner.props)
      = (gFind? (mergeNode g n) i).map (fun r => r.inner.props)
    ∧ (gFind? (mergeNode (mergeNode g n) n) i).map (fun r => r.inner.rev)
      = (gFind? (mergeNode g n) i).map (fun r => r.inner.rev) := by
  cases hn : n.inner.id with
  | none => simp [mergeNode, hn]
  | some id =>
    by_cases hi : i = id
    · subst hi
      have h1 := gFind?_mergeNode_self g n i hn
      have h2 := gFind?_mergeNode_self (mergeNode g n) n i hn
      rw [h1] at h2
      cases hx : n.index with
      | some ix =>
        simp only [hx] at h1 h2
        rw [h2, h1]
        simp [mergeContent_inner_props, mergeContent_inner_rev,
          IxNode.setIndex_inner, propExtendUnique_idem, revExtendUnique_idem]
      | none =>
        simp only [hx] at h1 h2
        rw [h2, h1]
        simp [mergeContent_inner_props, mergeContent_inner_rev,
          propExtendUnique_idem, revExtendUnique_idem]
    · rw [gFind?_mergeNode_ne (mergeNode g n) n i id hn hi]
      exact ⟨rfl, rfl⟩

end JsonLd

namespace JsonLd

theorem gContains_mergeNode (g : NodeMapGraph) (n : IxNode) (i : String) :
    gContains (mergeNode g n) i
      = (gContains g i || n.inner.id == Option.some i) := by
  cases hn : n.inner.id with
  | none => simp [mergeNode, hn]
  | some id =>
    by_cases hi : i = id
    · subst hi
      simp [gContains, gFind?_mergeNode_self g n i hn, hn]
    · rw [gContains, gFind?_mergeNode_ne g n i id hn hi]
      have : (Option.some id == Option.some i) = false := by
        simp
        exact fun h => hi h.symm
      simp [gContains, hn, this]

theorem gContains_mergeWith (g h : NodeMapGraph) (i : String) :
    gContains (mergeWith g h) i
      = (gContains g i || h.any (fun kr => kr.2.inner.id == Option.some i)) := by
  induction h generalizing g with
  | nil => simp [mergeWith]
  | cons kn rest ih =>
    obtain ⟨k, n⟩ := kn
    rw [mergeWith, ih (mergeNode g n)]
    simp [gContains_mergeNode, Bool.or_assoc]

theorem gContains_foldMergeGraphs (d : NodeMapGraph)
    (gs : List (String × NodeMapGraph)) (i : String) :
    gContains (foldMergeGraphs d gs) i
      = (gContains d i
          || gs.any (fun kg => kg.2.any (fun kr => kr.2.inner.id == Option.some i))) := by
  induction gs generalizing d with
  | nil => simp [foldMergeGraphs]
  | cons kg rest ih =>
    obtain ⟨k, g⟩ := kg
    rw [foldMergeGraphs, ih (mergeWith d g)]
    simp [gContains_mergeWith, Bool.or_assoc]

/-- A record for node `a` with type list `T1`, stored in a first named
graph (demonstration data for the merge-order claim). -/
def mergeDemoG1 : NodeMapGraph :=
  [("a", IxNode.mk (Node0.mk (Option.some "a") ["T1"] .none .none .nil .nil)
      Option.none)]

/-- A record for the same node `a` with type list `T2`, stored in a
second named graph. -/
def mergeDemoG2 : NodeMapGraph :=
  [("a", IxNode.mk (Node0.mk (Option.some "a") ["T2"] .none .none .nil .nil)
      Option.none)]

/-- A node map holding the two demonstration graphs in one order. -/
def mergeDemoM1 : NodeMap := ⟨[("g1", mergeDemoG1), ("g2", mergeDemoG2)], []⟩

/-- The same node map content with the named graphs in the other
order. -/
def mergeDemoM2 : NodeMap := ⟨[("g2", mergeDemoG2), ("g1", mergeDemoG1)], []⟩

/-- Counterexample to C4 as stated: two node maps holding the same
named graphs (same id-to-graph association, permuted fold order) and
the same default graph, whose consuming `merge` results differ — the
record for `a` ends with types `[T1, T2]` in one order and `[T2, T1]`
in the other. -/
theorem node_map_merge_order_counterexample :
    mergeDemoM1.graphs.Perm mergeDemoM2.graphs
    ∧ mergeDemoM1.default_graph = mergeDemoM2.default_graph
    ∧ (gFind? mergeDemoM1.merge "a").map (fun r => r.inner.types)
        = Option.some ["T1", "T2"]
    ∧ (gFind? mergeDemoM2.merge "a").map (fun r => r.inner.types)
        = Option.some ["T2", "T1"]
    ∧ NodeMap.merge mergeDemoM1 ≠ NodeMap.merge mergeDemoM2 := by
  refine ⟨?_, rfl, by decide, by decide, by decide⟩
  decide

/-- C4 amended: folding the named graphs into the default graph in any
order yields the same set of node ids in the merged graph (record
existence is order-independent); the per-id record content — for
example the order of the concatenated type lists, or the surviving
index, graph and included values — may depend on the fold order when
several named graphs hold a record for the same node id. -/
theorem node_map_merge_id_set_order_invariant (m1 m2 : NodeMap)
    (hd : m1.default_graph = m2.default_graph)
    (hp : m1.graphs.Perm m2.graphs) (i : String) :
    gContains m1.merge i = gContains m2.merge i := by
  rw [NodeMap.merge, NodeMap.merge, gContains_foldMergeGraphs,
    gContains_foldMergeGraphs, hd]
  have hany :
      m1.graphs.any (fun kg => kg.2.any (fun kr => kr.2.inner.id == Option.some i))
        = m2.graphs.any (fun kg => kg.2.any (fun kr => kr.2.inner.id == Option.some i)) := by
    rw [Bool.eq_iff_iff]
    simp only [List.any_eq_true]
    constructor
    · rintro ⟨x, hx, hfx⟩
      exact ⟨x, hp.mem_iff.mp hx, hfx⟩
    · rintro ⟨x, hx, hfx⟩
      exact ⟨x, hp.mem_iff.mpr hx, hfx⟩
  rw [hany]

/-- Witness for the amended C4 at the two demonstration node maps: node
`a` is present in the merge of both orders. -/
theorem node_map_merge_id_set_order_invariant_witness :
    gContains mergeDemoM1.merge "a" = gContains mergeDemoM2.merge "a" :=
  node_map_merge_id_set_order_invariant mergeDemoM1 mergeDemoM2 rfl
    (by decide) "a"

end JsonLd

namespace JsonLd

theorem IxNode.setIndex_index (r : IxNode) (x : Option String) :
    (r.setIndex x).index = x := by
  cases r
  rfl

theorem mergeContent_inner_types (node : Node0) (r : IxNode) :
    (mergeContent node r).inner.types = r.inner.types ++ node.types := by
  cases r with
  | mk x ix => cases x; rfl

theorem mergeContent_inner_graph (node : Node0) (r : IxNode) :
    (mergeContent node r).inner.graph = node.graph := by
  cases r with
  | mk x ix => cases x; rfl

theorem mergeContent_inner_included (node : Node0) (r : IxNode) :
    (mergeContent node r).inner.included = node.included := by
  cases r with
  | mk x ix => cases x; rfl

theorem mergeContent_index (node : Node0) (r : IxNode) :
    (mergeContent node r).index = r.index := by
  cases r with
  | mk x ix => cases x; rfl

/-- Two declarations of node `a`, first with type `T1`, then with type
`T2` (demonstration document for the record-extension claim). -/
def declareTwiceDoc : List IxObj :=
  [ IxObj.mk (Obj.node (Node0.mk (Option.some "a") ["T1"] .none .none .nil .nil))
      Option.none,
    IxObj.mk (Obj.node (Node0.mk (Option.some "a") ["T2"] .none .none .nil .nil))
      Option.none ]

/-- Counterexample to C3 as stated: after flattening a document that
declares node `a` first with type `T1` and then with type `T2`, the
record's type list is `[T2]` — the repeated declaration during the
traversal replaced the stored types (dropping `T1`) instead of
appending after them. -/
theorem node_record_extension_counterexample :
    (match generateNodeMap declareTwiceDoc with
      | .ok nm => (getRecord nm Option.none "a").map (fun r => r.inner.types)
      | .error _ => Option.none) = Option.some ["T2"]
    ∧ (match generateNodeMap declareTwiceDoc with
      | .ok nm => (getRecord nm Option.none "a").map (fun r => r.inner.types)
      | .error _ => Option.none) ≠ Option.some ["T1", "T2"] := by
  constructor
  · decide
  · decide

/-- C3 amended: `merge_node` only extends a record's types (appended
after the existing ones) and its forward and reverse properties
(every existing (property, value) edge is kept and every incoming
edge is inserted, uniquely), while the nested-graph content, the
included flag, and — when the incoming record carries one — the index
are overwritten; a successful `declare_node` on the store never
alters any record's types, forward or reverse properties, graph or
included content and never clears a stored index; but a repeated
declaration during the traversal subsequently stores the newly
resolved type list in place of the record's previous types (as the
concrete two-declaration document shows), rather than appending. -/
theorem node_record_extension_amended :
    (∀ (g : NodeMapGraph) (n : IxNode) (id : String) (r : IxNode),
      n.inner.id = Option.some id → gFind? g id = Option.some r →
      ∃ r', gFind? (mergeNode g n) id = Option.some r'
        ∧ r'.inner.types = r.inner.types ++ n.inner.types
        ∧ (∀ p v, propHasEdgeB r.inner.props p v = true →
            propHasEdgeB r'.inner.props p v = true)
        ∧ (∀ p v, propEdgeMemB n.inner.props p v = true →
            propHasEdgeB r'.inner.props p v = true)
        ∧ (∀ p w, revHasEdgeB r.inner.rev p w = true →
            revHasEdgeB r'.inner.rev p w = true)
        ∧ (∀ p w, revEdgeMemB n.inner.rev p w = true →
            revHasEdgeB r'.inner.rev p w = true)
        ∧ r'.inner.graph = n.inner.graph
        ∧ r'.inner.included = n.inner.included
        ∧ r'.index = (match n.index with
            | Option.some ix => Option.some ix
            | Option.none => r.index))
    ∧ (∀ (g : NodeMapGraph) (id : String) (idx : Option String)
        (g' : NodeMapGraph),
      declareNode g id idx = (g', Option.none) →
      ∀ j r, gFind? g j = Option.some r →
      ∃ r', gFind? g' j = Option.some r'
        ∧ r'.inner.props = r.inner.props
        ∧ r'.inner.rev = r.inner.rev
        ∧ r'.inner.types = r.inner.types
        ∧ r'.inner.graph = r.inner.graph
        ∧ r'.inner.included = r.inner.included
        ∧ (r.index.isSome = true → r'.index = r.index))
    ∧ (match generateNodeMap declareTwiceDoc with
      | .ok nm => (getRecord nm Option.none "a").map (fun r => r.inner.types)
      | .error _ => Option.none) = Option.some ["T2"] := by
  refine ⟨?_, ?_, by decide⟩
  · intro g n id r hn hf
    refine ⟨mergeContent n.inner (match gFind? g id, n.index with
      | Option.some r0, Option.some ix => r0.setIndex (Option.some ix)
      | Option.some r0, Option.none => r0
      | Option.none, _ => IxNode.mk (Node0.withId id) n.index),
      ?_, ?_, ?_, ?_, ?_, ?_, ?_, ?_, ?_⟩
    · exact gFind?_mergeNode_self g n id hn
    · cases hx : n.index with
      | some ix =>
        simp [hf, hx, mergeContent_inner_types, IxNode.setIndex_inner]
      | none => simp [hf, hx, mergeContent_inner_types]
    · intro p v hv
      cases hx : n.index with
      | some ix =>
        simp only [hf, hx]
        rw [mergeContent_inner_props]
        exact propExtendUnique_mono n.inner.props _ p v
          (by rwa [IxNode.setIndex_inner])
      | none =>
        simp only [hf, hx]
        rw [mergeContent_inner_props]
        exact propExtendUnique_mono n.inner.props _ p v hv
    · intro p v hv
      cases hx : n.index with
      | some ix =>
        simp only [hf, hx]
        rw [mergeContent_inner_props]
        exact propExtendUnique_covers n.inner.props _ p v hv
      | none =>
        simp only [hf, hx]
        rw [mergeContent_inner_props]
        exact propExtendUnique_covers n.inner.props _ p v hv
    · intro p w hw
      cases hx : n.index with
      | some ix =>
        simp only [hf, hx]
        rw [mergeContent_inner_rev]
        exact revExtendUnique_mono n.inner.rev _ p w
          (by rwa [IxNode.setIndex_inner])
      | none =>
        simp only [hf, hx]
        rw [mergeContent_inner_rev]
        exact revExtendUnique_mono n.inner.rev _ p w hw
    · intro p w hw
      cases hx : n.index with
      | some ix =>
        simp only [hf, hx]
        rw [mergeContent_inner_rev]
        exact revExtendUnique_covers n.inner.rev _ p w hw
      | none =>
        simp only [hf, hx]
        rw [mergeContent_inner_rev]
        exact revExtendUnique_covers n.inner.rev _ p w hw
    · cases hx : n.index <;> simp [hf, hx, mergeContent_inner_graph]
    · cases hx : n.index <;> simp [hf, hx, mergeContent_inner_included]
    · cases hx : n.index with
      | some ix =>
        simp [hf, hx, mergeContent_index, IxNode.setIndex_index]
      | none => simp [hf, hx, mergeContent_index]
  · intro g id idx g' hdecl j r hfj
    cases hf : gFind? g id with
    | some r0 =>
      cases hi : r0.index with
      | some ei =>
        cases hx : idx with
        | some ci =>
          by_cases hne : ei = ci
          · subst hne
            simp [declareNode, hf, hi, hx] at hdecl
            subst hdecl
            exact ⟨r, hfj, rfl, rfl, rfl, rfl, rfl, fun _ => rfl⟩
          · simp [declareNode, hf, hi, hx, hne] at hdecl
        | none =>
          simp [declareNode, hf, hi, hx] at hdecl
          subst hdecl
          exact ⟨r, hfj, rfl, rfl, rfl, rfl, rfl, fun _ => rfl⟩
      | none =>
        cases hx : idx with
        | some ci =>
          simp [declareNode, hf, hi, hx] at hdecl
          subst hdecl
          by_cases hj : j = id
          · subst hj
            have hr0 : r0 = r := by
              rw [hf] at hfj
              exact Option.some.inj hfj
            subst hr0
            refine ⟨r0.setIndex (Option.some ci), ?_, ?_, ?_, ?_, ?_, ?_, ?_⟩
            · rw [gFind?_gModify]
              simp [hfj]
            · rw [IxNode.setIndex_inner]
            · rw [IxNode.setIndex_inner]
            · rw [IxNode.setIndex_inner]
            · rw [IxNode.setIndex_inner]
            · rw [IxNode.setIndex_inner]
            · intro hsome
              rw [hi] at hsome
              simp at hsome
          · refine ⟨r, ?_, rfl, rfl, rfl, rfl, rfl, fun _ => rfl⟩
            rw [gFind?_gModify]
            simp [hj, hfj]
        | none =>
          simp [declareNode, hf, hi, hx] at hdecl
          subst hdecl
          exact ⟨r, hfj, rfl, rfl, rfl, rfl, rfl, fun _ => rfl⟩
    | none =>
      simp [declareNode, hf] at hdecl
      subst hdecl
      have hj : j ≠ id := by
        intro h
        subst h
        rw [hf] at hfj
        exact Option.noConfusion hfj
      refine ⟨r, ?_, rfl, rfl, rfl, rfl, rfl, fun _ => rfl⟩
      rw [gFind?_gInsert_ne g id _ j hj]
      exact hfj

end JsonLd

namespace JsonLd

/-- A store holding node `a` with type `T1` (demonstration data for the
record-extension claim). -/
def demoStoreC3 : NodeMapGraph :=
  [("a", IxNode.mk (Node0.mk (Option.some "a") ["T1"] .none .none .nil .nil)
      Option.none)]

/-- An incoming node `a` with type `T2` to be merged into the store. -/
def demoNodeC3 : IxNode :=
  IxNode.mk (Node0.mk (Option.some "a") ["T2"] .none .none .nil .nil) Option.none

/-- Witness for the amended C3: merging the incoming `a`/`T2` node into
the store holding `a`/`T1` appends the types, preserves and inserts
forward and reverse property edges, and overwrites graph, included
and index content. -/
theorem node_record_extension_amended_witness :
    ∃ r', gFind? (mergeNode demoStoreC3 demoNodeC3) "a" = Option.some r'
      ∧ r'.inner.types = ["T1"] ++ ["T2"]
      ∧ (∀ p v, propHasEdgeB
            (IxNode.mk (Node0.mk (Option.some "a") ["T1"] .none .none .nil .nil)
              Option.none).inner.props p v = true →
          propHasEdgeB r'.inner.props p v = true)
      ∧ (∀ p v, propEdgeMemB demoNodeC3.inner.props p v = true →
          propHasEdgeB r'.inner.props p v = true)
      ∧ (∀ p w, revHasEdgeB
            (IxNode.mk (Node0.mk (Option.some "a") ["T1"] .none .none .nil .nil)
              Option.none).inner.rev p w = true →
          revHasEdgeB r'.inner.rev p w = true)
      ∧ (∀ p w, revEdgeMemB demoNodeC3.inner.rev p w = true →
          revHasEdgeB r'.inner.rev p w = true)
      ∧ r'.inner.graph = GraphContent.none
      ∧ r'.inner.included = IncludedContent.none
      ∧ r'.index = Option.none :=
  node_record_extension_amended.1 demoStoreC3 demoNodeC3 "a"
    (IxNode.mk (Node0.mk (Option.some "a") ["T1"] .none .none .nil .nil)
      Option.none) (by decide) (by decide)

end JsonLd

namespace JsonLd

theorem processTop_append (st : St) (l1 l2 : List IxObj) :
    processTop st (l1 ++ l2) =
      match processTop st l1 with
      | .error e => .error e
      | .ok st' => processTop st' l2 := by
  induction l1 generalizing st with
  | nil => simp [processTop]
  | cons o rest ih =>
    cases hx : extendIxObj st o Option.none with
    | error e => simp [processTop, hx]
    | ok p =>
      obtain ⟨r, st1⟩ := p
      simp [processTop, hx, ih st1]

/-- C5: `generate_node_map` either returns a complete node map or fails
with `ConflictingIndexes` (the sole checked error, by the result
type), and the first conflict encountered in the traversal aborts the
whole call by early return with exactly that error, regardless of the
remaining input, returning no partial node map. -/
theorem generate_node_map_short_circuit (pre : List IxObj) (o : IxObj)
    (post : List IxObj) (st1 : St) (e : ConflictingIndexes)
    (hpre : processTop ⟨Namespace.init, NodeMap.empty⟩ pre = .ok st1)
    (herr : extendIxObj st1 o Option.none = .error e) :
    generateNodeMap (pre ++ o :: post) = .error e := by
  rw [generateNodeMap, processTop_append, hpre]
  simp [processTop, herr]

/-- Witness for C5 at a concrete document: node `a` declared with index
`1`, then again with index `2`, then an unrelated node `c`; the call
aborts with the conflict and never reaches `c`. -/
theorem generate_node_map_short_circuit_witness :
    generateNodeMap
        [ IxObj.mk (Obj.node (Node0.mk (Option.some "a") [] .none .none .nil .nil))
            (Option.some "1"),
          IxObj.mk (Obj.node (Node0.mk (Option.some "a") [] .none .none .nil .nil))
            (Option.some "2"),
          IxObj.mk (Obj.node (Node0.mk (Option.some "c") [] .none .none .nil .nil))
            Option.none ]
      = .error ⟨"a", "1", "2"⟩ :=
  generate_node_map_short_circuit
    [ IxObj.mk (Obj.node (Node0.mk (Option.some "a") [] .none .none .nil .nil))
        (Option.some "1") ]
    (IxObj.mk (Obj.node (Node0.mk (Option.some "a") [] .none .none .nil .nil))
      (Option.some "2"))
    [ IxObj.mk (Obj.node (Node0.mk (Option.some "c") [] .none .none .nil .nil))
        Option.none ]
    ⟨⟨0⟩, ⟨[], [("a", IxNode.mk (Node0.mk (Option.some "a") [] .none .none .nil .nil)
        (Option.some "1"))]⟩⟩
    ⟨"a", "1", "2"⟩ rfl rfl

end JsonLd

namespace JsonLd

/-- Whether the graph selected by the optional id exists in the node
map (the `graph_mut(..).unwrap()` success condition). -/
def graphExistsB (m : NodeMap) (ag : Option String) : Bool :=
  (m.graph ag).isSome

/-- Whether a record for `i` exists in the selected graph. -/
def recExistsB (m : NodeMap) (ag : Option String) (i : String) : Bool :=
  (getRecord m ag i).isSome

/-- Whether the record for `i` in the selected graph binds `v` under
forward property `p`. -/
def nmHasEdge (m : NodeMap) (ag : Option String) (i p : String) (v : IxObj) : Bool :=
  match getRecord m ag i with
  | Option.some r => propHasEdgeB r.inner.props p v
  | Option.none => false

/-- Whether a reverse-property map is empty. -/
def revIsNil : RevList → Bool
  | .nil => true
  | .cons _ _ _ => false

/-- Whether every record of a graph store carries an empty
reverse-property map. -/
def gRevFree (g : NodeMapGraph) : Bool :=
  g.all (fun kr => revIsNil kr.2.inner.rev)

/-- Whether every record of every graph of the node map carries an
empty reverse-property map. -/
def revFreeNM (m : NodeMap) : Bool :=
  gRevFree m.default_graph && m.graphs.all (fun kg => gRevFree kg.2)

/-- Monotone evolution of the node map along the traversal: graphs and
records are never removed, forward-property edges are never removed,
and reverse-property-freeness is preserved. -/
def StLe (a b : NodeMap) : Prop :=
  (∀ ag, graphExistsB a ag = true → graphExistsB b ag = true)
  ∧ (∀ ag i, recExistsB a ag i = true → recExistsB b ag i = true)
  ∧ (∀ ag i p v, nmHasEdge a ag i p v = true → nmHasEdge b ag i p v = true)
  ∧ (revFreeNM a = true → revFreeNM b = true)

theorem StLe_refl (m : NodeMap) : StLe m m :=
  ⟨fun _ h => h, fun _ _ h => h, fun _ _ _ _ h => h, fun h => h⟩

theorem StLe_trans {a b c : NodeMap} (h1 : StLe a b) (h2 : StLe b c) : StLe a c :=
  ⟨fun ag h => h2.1 ag (h1.1 ag h),
    fun ag i h => h2.2.1 ag i (h1.2.1 ag i h),
    fun ag i p v h => h2.2.2.1 ag i p v (h1.2.2.1 ag i p v h),
    fun h => h2.2.2.2 (h1.2.2.2 h)⟩

theorem glFind?_glModify (gs : List (String × NodeMapGraph)) (i j : String)
    (f : NodeMapGraph → NodeMapGraph) :
    glFind? (glModify gs i f) j =
      if j = i then (glFind? gs j).map f else glFind? gs j := by
  induction gs with
  | nil => simp [glFind?, glModify]
  | cons kg rest ih =>
    obtain ⟨k, g⟩ := kg
    by_cases hk : k = i
    · subst hk
      by_cases hj : k = j
      · subst hj
        simp [glFind?, glModify]
      · simp [glFind?, glModify, hj, ih]
    · by_cases hj : k = j
      · subst hj
        simp [glFind?, glModify, hk]
      · simp [glFind?, glModify, hk, hj, ih]

theorem gFind?_all (g : NodeMapGraph) (f : String × IxNode → Bool)
    (hall : g.all f = true) (i : String) (r : IxNode)
    (hf : gFind? g i = Option.some r) : f (i, r) = true := by
  induction g with
  | nil => simp [gFind?] at hf
  | cons kr rest ih =>
    obtain ⟨k, x⟩ := kr
    simp only [List.all_cons, Bool.and_eq_true] at hall
    by_cases hk : k = i
    · subst hk
      simp [gFind?] at hf
      rw [← hf]
      exact hall.1
    · simp [gFind?, hk] at hf
      exact ih hall.2 hf

theorem glFind?_all (gs : List (String × NodeMapGraph))
    (f : String × NodeMapGraph → Bool) (hall : gs.all f = true) (i : String)
    (g : NodeMapGraph) (hf : glFind? gs i = Option.some g) : f (i, g) = true := by
  induction gs with
  | nil => simp [glFind?] at hf
  | cons kg rest ih =>
    obtain ⟨k, x⟩ := kg
    simp only [List.all_cons, Bool.and_eq_true] at hall
    by_cases hk : k = i
    · subst hk
      simp [glFind?] at hf
      rw [← hf]
      exact hall.1
    · simp [glFind?, hk] at hf
      exact ih hall.2 hf

/-- Lookup characterization of the graph selected after
`NodeMap.modifyGraph`. -/
theorem graph_modifyGraph (m : NodeMap) (ag : Option String)
    (f : NodeMapGraph → NodeMapGraph) (ag' : Option String) :
    (m.modifyGraph ag f).graph ag' =
      if ag' = ag then (m.graph ag').map f else m.graph ag' := by
  cases ag with
  | none =>
    cases ag' with
    | none => simp [NodeMap.modifyGraph, NodeMap.graph]
    | some j => simp [NodeMap.modifyGraph, NodeMap.graph]
  | some i =>
    cases ag' with
    | none => simp [NodeMap.modifyGraph, NodeMap.graph]
    | some j =>
      by_cases hj : j = i
      · subst hj
        simp [NodeMap.modifyGraph, NodeMap.graph, glFind?_glModify]
      · simp [NodeMap.modifyGraph, NodeMap.graph, glFind?_glModify, hj]

end JsonLd

namespace JsonLd

/-- Monotone evolution of one graph store: records never removed,
forward edges never removed, reverse-freeness preserved. -/
def gLe (g g' : NodeMapGraph) : Prop :=
  (∀ j, gContains g j = true → gContains g' j = true)
  ∧ (∀ j r p v, gFind? g j = Option.some r →
      propHasEdgeB r.inner.props p v = true →
      ∃ r', gFind? g' j = Option.some r'
        ∧ propHasEdgeB r'.inner.props p v = true)
  ∧ (gRevFree g = true → gRevFree g' = true)

theorem gRevFree_gModify (g : NodeMapGraph) (i : String) (f : IxNode → IxNode)
    (hf : ∀ r, revIsNil r.inner.rev = true → revIsNil (f r).inner.rev = true)
    (h : gRevFree g = true) : gRevFree (gModify g i f) = true := by
  induction g with
  | nil => simp [gModify, gRevFree]
  | cons kr rest ih =>
    obtain ⟨k, r⟩ := kr
    rw [gRevFree, List.all_cons, Bool.and_eq_true] at h
    have ih2 := ih h.2
    by_cases hk : k = i
    · simp [gModify, hk, gRevFree, hf r h.1]
      simpa [gRevFree] using ih2
    · simp [gModify, hk, gRevFree, h.1]
      simpa [gRevFree] using ih2

theorem gModify_gLe (g : NodeMapGraph) (i : String) (f : IxNode → IxNode)
    (hp : ∀ r p v, propHasEdgeB r.inner.props p v = true →
      propHasEdgeB (f r).inner.props p v = true)
    (hr : ∀ r, revIsNil r.inner.rev = true → revIsNil (f r).inner.rev = true) :
    gLe g (gModify g i f) := by
  refine ⟨?_, ?_, gRevFree_gModify g i f hr⟩
  · intro j h
    rw [gContains] at h ⊢
    rw [gFind?_gModify]
    by_cases hj : j = i
    · subst hj
      simpa using h
    · simpa [hj] using h
  · intro j r p v hf hv
    rw [gFind?_gModify]
    by_cases hj : j = i
    · subst hj
      exact ⟨f r, by simp [hf], hp r p v hv⟩
    · exact ⟨r, by simp [hj, hf], hv⟩

theorem gLe_refl (g : NodeMapGraph) : gLe g g :=
  ⟨fun _ h => h, fun _ r _ _ h1 h2 => ⟨r, h1, h2⟩, fun h => h⟩

theorem declareNode_fst_cases (g : NodeMapGraph) (id : String)
    (idx : Option String) :
    ((gFind? g id).isSome = true ∧ (declareNode g id idx).1 = g)
    ∨ ((gFind? g id).isSome = true ∧ ∃ i, (declareNode g id idx).1
        = gModify g id (fun r => r.setIndex (Option.some i)))
    ∨ (gFind? g id = Option.none
        ∧ (declareNode g id idx).1
            = gInsert g id (IxNode.mk (Node0.withId id) idx)) := by
  cases hf : gFind? g id with
  | some entry =>
    cases hi : entry.index with
    | some ei =>
      cases hx : idx with
      | some ci =>
        by_cases hne : ei = ci
        · subst hne
          left
          simp [declareNode, hf, hi, hx]
        · left
          simp [declareNode, hf, hi, hx, hne]
      | none =>
        left
        simp [declareNode, hf, hi, hx]
    | none =>
      cases hx : idx with
      | some ci =>
        right; left
        exact ⟨by simp [hf], ci, by simp [declareNode, hf, hi, hx]⟩
      | none =>
        left
        simp [declareNode, hf, hi, hx]
  | none =>
    right; right
    exact ⟨rfl, by simp [declareNode, hf]⟩

theorem gInsert_gLe (g : NodeMapGraph) (id : String) (idx : Option String)
    (hf : gFind? g id = Option.none) :
    gLe g (gInsert g id (IxNode.mk (Node0.withId id) idx)) := by
  refine ⟨?_, ?_, ?_⟩
  · intro j h
    rw [gContains] at h ⊢
    by_cases hj : j = id
    · subst hj
      simp [gFind?_gInsert_self]
    · rw [gFind?_gInsert_ne g id _ j hj]
      exact h
  · intro j r p v h1 h2
    by_cases hj : j = id
    · subst hj
      rw [hf] at h1
      exact Option.noConfusion h1
    · rw [gFind?_gInsert_ne g id _ j hj]
      exact ⟨r, h1, h2⟩
  · intro h
    simp only [gInsert, gRevFree, List.all_cons, Bool.and_eq_true]
    refine ⟨rfl, ?_⟩
    simpa [gRevFree] using h

theorem declareNode_gLe (g : NodeMapGraph) (id : String) (idx : Option String) :
    gLe g (declareNode g id idx).1 := by
  rcases declareNode_fst_cases g id idx with ⟨_, h⟩ | ⟨_, i, h⟩ | ⟨hf, h⟩
  · rw [h]
    exact gLe_refl g
  · rw [h]
    exact gModify_gLe g id _
      (fun r p v hv => by rwa [IxNode.setIndex_inner])
      (fun r hv => by rwa [IxNode.setIndex_inner])
  · rw [h]
    exact gInsert_gLe g id idx hf

end JsonLd

namespace JsonLd

theorem glModify_all_const (gs : List (String × NodeMapGraph)) (i : String)
    (g' : NodeMapGraph) (f : NodeMapGraph → Bool)
    (h : gs.all (fun kg => f kg.2) = true) (hg' : f g' = true) :
    (glModify gs i (fun _ => g')).all (fun kg => f kg.2) = true := by
  induction gs with
  | nil => simp [glModify]
  | cons kg rest ih =>
    obtain ⟨k, g⟩ := kg
    rw [List.all_cons, Bool.and_eq_true] at h
    by_cases hk : k = i
    · simp [glModify, hk, hg', ih h.2]
    · simp [glModify, hk, h.1, ih h.2]

theorem glModify_all (gs : List (String × NodeMapGraph)) (i : String)
    (F : NodeMapGraph → NodeMapGraph) (f : NodeMapGraph → Bool)
    (h : gs.all (fun kg => f kg.2) = true)
    (hF : ∀ g, f g = true → f (F g) = true) :
    (glModify gs i F).all (fun kg => f kg.2) = true := by
  induction gs with
  | nil => simp [glModify]
  | cons kg rest ih =>
    obtain ⟨k, g⟩ := kg
    rw [List.all_cons, Bool.and_eq_true] at h
    by_cases hk : k = i
    · simp [glModify, hk, hF g h.1, ih h.2]
    · simp [glModify, hk, h.1, ih h.2]

theorem getRecord_of_graph (m : NodeMap) (ag : Option String)
    (g : NodeMapGraph) (i : String) (hg : m.graph ag = Option.some g) :
    getRecord m ag i = gFind? g i := by
  rw [getRecord, hg]

theorem getRecord_of_noGraph (m : NodeMap) (ag : Option String) (i : String)
    (hg : m.graph ag = Option.none) : getRecord m ag i = Option.none := by
  rw [getRecord, hg]

theorem StLe_modifyGraph (m : NodeMap) (ag : Option String)
    (F : NodeMapGraph → NodeMapGraph) (hF : ∀ g, gLe g (F g)) :
    StLe m (m.modifyGraph ag F) := by
  refine ⟨?_, ?_, ?_, ?_⟩
  · intro ag' h
    rw [graphExistsB] at h ⊢
    rw [graph_modifyGraph]
    by_cases hag : ag' = ag
    · simpa [hag] using h
    · simpa [hag] using h
  · intro ag' i h
    rw [recExistsB] at h ⊢
    by_cases hag : ag' = ag
    · subst hag
      cases hg : m.graph ag' with
      | none =>
        rw [getRecord_of_noGraph m ag' i hg] at h
        simp at h
      | some g =>
        have hg' : (m.modifyGraph ag' F).graph ag' = Option.some (F g) := by
          rw [graph_modifyGraph]
          simp [hg]
        rw [getRecord_of_graph m ag' g i hg] at h
        rw [getRecord_of_graph _ ag' (F g) i hg']
        have hc := (hF g).1 i
        simp only [gContains] at hc
        exact hc h
    · have hg' : (m.modifyGraph ag F).graph ag' = m.graph ag' := by
        rw [graph_modifyGraph]
        simp [hag]
      rw [getRecord] at h ⊢
      rw [hg']
      exact h
  · intro ag' i p v h
    rw [nmHasEdge] at h ⊢
    by_cases hag : ag' = ag
    · subst hag
      cases hg : m.graph ag' with
      | none =>
        rw [getRecord_of_noGraph m ag' i hg] at h
        simp at h
      | some g =>
        have hg' : (m.modifyGraph ag' F).graph ag' = Option.some (F g) := by
          rw [graph_modifyGraph]
          simp [hg]
        rw [getRecord_of_graph m ag' g i hg] at h
        rw [getRecord_of_graph _ ag' (F g) i hg']
        cases hr : gFind? g i with
        | none =>
          rw [hr] at h
          simp at h
        | some r =>
          rw [hr] at h
          simp only [] at h
          obtain ⟨r', hr', hv'⟩ := (hF g).2.1 i r p v hr (by simpa using h)
          rw [hr']
          simpa using hv'
    · have hg' : (m.modifyGraph ag F).graph ag' = m.graph ag' := by
        rw [graph_modifyGraph]
        simp [hag]
      rw [getRecord] at h ⊢
      rw [hg']
      exact h
  · intro h
    rw [revFreeNM, Bool.and_eq_true] at h
    cases ag with
    | none =>
      rw [NodeMap.modifyGraph, revFreeNM, Bool.and_eq_true]
      exact ⟨(hF m.default_graph).2.2 h.1, h.2⟩
    | some i =>
      rw [NodeMap.modifyGraph, revFreeNM, Bool.and_eq_true]
      refine ⟨h.1, ?_⟩
      exact glModify_all m.graphs i F _ h.2 (fun g hg => (hF g).2.2 hg)

theorem StLe_modifyRecord (m : NodeMap) (ag : Option String) (i : String)
    (f : IxNode → IxNode)
    (hp : ∀ r p v, propHasEdgeB r.inner.props p v = true →
      propHasEdgeB (f r).inner.props p v = true)
    (hr : ∀ r, revIsNil r.inner.rev = true → revIsNil (f r).inner.rev = true) :
    StLe m (modifyRecord m ag i f) :=
  StLe_modifyGraph m ag _ (fun g => gModify_gLe g i f hp hr)

theorem StLe_declareGraph (m : NodeMap) (i : String) :
    StLe m (m.declareGraph i) := by
  cases hf : glFind? m.graphs i with
  | some g =>
    rw [NodeMap.declareGraph, hf]
    exact StLe_refl m
  | none =>
    rw [NodeMap.declareGraph, hf]
    refine ⟨?_, ?_, ?_, ?_⟩
    · intro ag h
      cases ag with
      | none => simpa [graphExistsB, NodeMap.graph] using h
      | some j =>
        rw [graphExistsB, NodeMap.graph] at h ⊢
        by_cases hj : i = j
        · simp [glFind?, hj]
        · simpa [glFind?, hj] using h
    · intro ag j h
      cases ag with
      | none => simpa [recExistsB, getRecord, NodeMap.graph] using h
      | some k =>
        rw [recExistsB, getRecord, NodeMap.graph] at h ⊢
        by_cases hk : i = k
        · subst hk
          rw [hf] at h
          simp at h
        · simpa [glFind?, hk] using h
    · intro ag j p v h
      cases ag with
      | none => simpa [nmHasEdge, getRecord, NodeMap.graph] using h
      | some k =>
        rw [nmHasEdge, getRecord, NodeMap.graph] at h ⊢
        by_cases hk : i = k
        · subst hk
          rw [hf] at h
          simp at h
        · simpa [glFind?, hk] using h
    · intro h
      rw [revFreeNM, Bool.and_eq_true] at h ⊢
      refine ⟨h.1, ?_⟩
      rw [List.all_cons]
      simp only [Bool.and_eq_true]
      refine ⟨by simp [gRevFree], ?_⟩
      exact h.2

end JsonLd


namespace JsonLd

theorem declareNode_contains_self (g : NodeMapGraph) (id : String)
    (idx : Option String) : gContains (declareNode g id idx).1 id = true := by
  rcases declareNode_fst_cases g id idx with ⟨hs, h⟩ | ⟨hs, i, h⟩ | ⟨hf, h⟩
  · rw [h, gContains]
    exact hs
  · rw [h, gContains, gFind?_gModify]
    simp only [if_pos rfl]
    simpa using hs
  · rw [h, gContains, gFind?_gInsert_self]
    rfl

end JsonLd

namespace JsonLd

theorem StLe_setGraph (m : NodeMap) (ag : Option String) (g g' : NodeMapGraph)
    (hg : m.graph ag = Option.some g) (hle : gLe g g') :
    StLe m (m.modifyGraph ag (fun _ => g')) := by
  refine ⟨?_, ?_, ?_, ?_⟩
  · intro ag' h
    rw [graphExistsB] at h ⊢
    rw [graph_modifyGraph]
    by_cases hag : ag' = ag
    · simp [hag, hg]
    · simpa [hag] using h
  · intro ag' i h
    rw [recExistsB] at h ⊢
    by_cases hag : ag' = ag
    · subst hag
      have hg' : (m.modifyGraph ag' (fun _ => g')).graph ag' = Option.some g' := by
        rw [graph_modifyGraph]
        simp [hg]
      rw [getRecord_of_graph m ag' g i hg] at h
      rw [getRecord_of_graph _ ag' g' i hg']
      have hc := hle.1 i
      simp only [gContains] at hc
      exact hc h
    · have hg' : (m.modifyGraph ag (fun _ => g')).graph ag' = m.graph ag' := by
        rw [graph_modifyGraph]
        simp [hag]
      rw [getRecord] at h ⊢
      rw [hg']
      exact h
  · intro ag' i p v h
    rw [nmHasEdge] at h ⊢
    by_cases hag : ag' = ag
    · subst hag
      have hg' : (m.modifyGraph ag' (fun _ => g')).graph ag' = Option.some g' := by
        rw [graph_modifyGraph]
        simp [hg]
      rw [getRecord_of_graph m ag' g i hg] at h
      rw [getRecord_of_graph _ ag' g' i hg']
      cases hr : gFind? g i with
      | none =>
        rw [hr] at h
        simp at h
      | some r =>
        rw [hr] at h
        obtain ⟨r', hr', hv'⟩ := hle.2.1 i r p v hr (by simpa using h)
        rw [hr']
        simpa using hv'
    · have hg' : (m.modifyGraph ag (fun _ => g')).graph ag' = m.graph ag' := by
        rw [graph_modifyGraph]
        simp [hag]
      rw [getRecord] at h ⊢
      rw [hg']
      exact h
  · intro h
    rw [revFreeNM, Bool.and_eq_true] at h
    cases ag with
    | none =>
      have hdg : g = m.default_graph := by
        rw [NodeMap.graph] at hg
        exact (Option.some.inj hg).symm
      rw [NodeMap.modifyGraph, revFreeNM, Bool.and_eq_true]
      refine ⟨?_, h.2⟩
      exact hle.2.2 (hdg ▸ h.1)
    | some i =>
      rw [NodeMap.modifyGraph, revFreeNM, Bool.and_eq_true]
      refine ⟨h.1, ?_⟩
      have hgrev : gRevFree g = true := by
        rw [NodeMap.graph] at hg
        exact glFind?_all m.graphs _ h.2 i g hg
      exact glModify_all_const m.graphs i g' _ h.2 (hle.2.2 hgrev)

theorem StLe_nmDeclareNode (m : NodeMap) (ag : Option String) (id : String)
    (idx : Option String) : StLe m (nmDeclareNode m ag id idx).1 := by
  cases ag with
  | none =>
    rcases hD : declareNode m.default_graph id idx with ⟨g', c⟩
    have hle : gLe m.default_graph g' := by
      have := declareNode_gLe m.default_graph id idx
      rwa [hD] at this
    simp only [nmDeclareNode, hD]
    exact StLe_setGraph m Option.none m.default_graph g' rfl hle
  | some i =>
    cases hg : glFind? m.graphs i with
    | none =>
      simp only [nmDeclareNode, hg]
      exact StLe_refl m
    | some g =>
      rcases hD : declareNode g id idx with ⟨g', c⟩
      have hle : gLe g g' := by
        have := declareNode_gLe g id idx
        rwa [hD] at this
      simp only [nmDeclareNode, hg, hD]
      exact StLe_setGraph m (Option.some i) g g' hg hle

theorem nmDeclareNode_declares (m : NodeMap) (ag : Option String) (id : String)
    (idx : Option String) (hex : graphExistsB m ag = true) :
    recExistsB (nmDeclareNode m ag id idx).1 ag id = true := by
  cases ag with
  | none =>
    rcases hD : declareNode m.default_graph id idx with ⟨g', c⟩
    simp only [nmDeclareNode, hD]
    rw [recExistsB, getRecord_of_graph (NodeMap.mk m.graphs g') Option.none g' id rfl]
    have := declareNode_contains_self m.default_graph id idx
    rw [hD, gContains] at this
    exact this
  | some i =>
    cases hg : glFind? m.graphs i with
    | none =>
      rw [graphExistsB, NodeMap.graph, hg] at hex
      simp at hex
    | some g =>
      rcases hD : declareNode g id idx with ⟨g', c⟩
      simp only [nmDeclareNode, hg, hD]
      have hg' : (NodeMap.mk (glModify m.graphs i (fun _ => g')) m.default_graph).graph
          (Option.some i) = Option.some g' := by
        rw [NodeMap.graph, glFind?_glModify]
        simp [hg]
      rw [recExistsB, getRecord_of_graph _ (Option.some i) g' id hg']
      have := declareNode_contains_self g id idx
      rw [hD, gContains] at this
      exact this

end JsonLd

namespace JsonLd

theorem setTypesRec_props (ts : List String) (r : IxNode) :
    (setTypesRec ts r).inner.props = r.inner.props := by
  cases r with
  | mk x ix => cases x; rfl

theorem setTypesRec_rev (ts : List String) (r : IxNode) :
    (setTypesRec ts r).inner.rev = r.inner.rev := by
  cases r with
  | mk x ix => cases x; rfl

theorem graphUnionRec_props (fg : ObjList) (r : IxNode) :
    (graphUnionRec fg r).inner.props = r.inner.props := by
  cases r with
  | mk x ix =>
    cases x with
    | mk id t g inc ps rv => cases g <;> rfl

theorem graphUnionRec_rev (fg : ObjList) (r : IxNode) :
    (graphUnionRec fg r).inner.rev = r.inner.rev := by
  cases r with
  | mk x ix =>
    cases x with
    | mk id t g inc ps rv => cases g <;> rfl

theorem propsInsertAllRec_props (p : String) (vs : ObjList) (r : IxNode) :
    (propsInsertAllRec p vs r).inner.props
      = propInsertAllUnique r.inner.props p vs := by
  cases r with
  | mk x ix => cases x; rfl

theorem propsInsertAllRec_rev (p : String) (vs : ObjList) (r : IxNode) :
    (propsInsertAllRec p vs r).inner.rev = r.inner.rev := by
  cases r with
  | mk x ix => cases x; rfl

theorem propsInsertOneRec_props (p : String) (v : IxObj) (r : IxNode) :
    (propsInsertOneRec p v r).inner.props
      = propInsertUnique r.inner.props p v := by
  cases r with
  | mk x ix => cases x; rfl

theorem propsInsertOneRec_rev (p : String) (v : IxObj) (r : IxNode) :
    (propsInsertOneRec p v r).inner.rev = r.inner.rev := by
  cases r with
  | mk x ix => cases x; rfl

theorem StLe_setTypesRec (m : NodeMap) (ag : Option String) (i : String)
    (ts : List String) : StLe m (modifyRecord m ag i (setTypesRec ts)) :=
  StLe_modifyRecord m ag i _
    (fun r p v h => by rwa [setTypesRec_props])
    (fun r h => by rwa [setTypesRec_rev])

theorem StLe_graphUnionRec (m : NodeMap) (ag : Option String) (i : String)
    (fg : ObjList) : StLe m (modifyRecord m ag i (graphUnionRec fg)) :=
  StLe_modifyRecord m ag i _
    (fun r p v h => by rwa [graphUnionRec_props])
    (fun r h => by rwa [graphUnionRec_rev])

theorem StLe_propsInsertAllRec (m : NodeMap) (ag : Option String) (i : String)
    (p : String) (vs : ObjList) :
    StLe m (modifyRecord m ag i (propsInsertAllRec p vs)) :=
  StLe_modifyRecord m ag i _
    (fun r q w h => by
      rw [propsInsertAllRec_props]
      exact propInsertAllUnique_mono vs r.inner.props p q w h)
    (fun r h => by rwa [propsInsertAllRec_rev])

theorem StLe_propsInsertOneRec (m : NodeMap) (ag : Option String) (i : String)
    (p : String) (v : IxObj) :
    StLe m (modifyRecord m ag i (propsInsertOneRec p v)) :=
  StLe_modifyRecord m ag i _
    (fun r q w h => by
      rw [propsInsertOneRec_props]
      exact propInsertUnique_mono r.inner.props p v q w h)
    (fun r h => by rwa [propsInsertOneRec_rev])

end JsonLd

namespace JsonLd

mutual

theorem extendIxObj_le : ∀ (st : St) (e : IxObj) (ag : Option String)
    (res : IxObj) (stF : St),
    extendIxObj st e ag = .ok (res, stF) → StLe st.nm stF.nm
  | st, .mk (.value v) idx, ag, res, stF, h => by
    simp only [extendIxObj] at h
    cases h
    exact StLe_refl st.nm
  | st, .mk (.list items) idx, ag, res, stF, h => by
    simp only [extendIxObj] at h
    cases hL : extendObjList st items ag with
    | error e =>
      rw [hL] at h
      exact absurd h (by simp)
    | ok p =>
      obtain ⟨fl, st1⟩ := p
      rw [hL] at h
      simp only [] at h
      cases h
      exact extendObjList_le st items ag _ _ hL
  | st, .mk (.node n) idx, ag, res, stF, h => by
    simp only [extendIxObj] at h
    cases hN : extendNode st n idx ag with
    | error e =>
      rw [hN] at h
      exact absurd h (by simp)
    | ok p =>
      obtain ⟨fn, st1⟩ := p
      rw [hN] at h
      simp only [] at h
      cases h
      exact extendNode_le st n idx ag _ _ hN

termination_by st e ag res stF h => sizeOf e

theorem extendObjList_le : ∀ (st : St) (items : ObjList) (ag : Option String)
    (res : ObjList) (stF : St),
    extendObjList st items ag = .ok (res, stF) → StLe st.nm stF.nm
  | st, .nil, ag, res, stF, h => by
    simp only [extendObjList] at h
    cases h
    exact StLe_refl st.nm
  | st, .cons o rest, ag, res, stF, h => by
    simp only [extendObjList] at h
    cases hO : extendIxObj st o ag with
    | error e =>
      rw [hO] at h
      exact absurd h (by simp)
    | ok p =>
      obtain ⟨fo, st1⟩ := p
      rw [hO] at h
      simp only [] at h
      cases hR : extendObjList st1 rest ag with
      | error e =>
        rw [hR] at h
        exact absurd h (by simp)
      | ok q =>
        obtain ⟨fs, st2⟩ := q
        rw [hR] at h
        simp only [] at h
        cases h
        exact StLe_trans (extendIxObj_le st o ag _ _ hO)
          (extendObjList_le st1 rest ag _ _ hR)

termination_by st items ag res stF h => sizeOf items

theorem extendNode_le : ∀ (st : St) (n : Node0) (idx : Option String)
    (ag : Option String) (res : IxNode) (stF : St),
    extendNode st n idx ag = .ok (res, stF) → StLe st.nm stF.nm
  | st, .mk oid tys gr inc ps rv, idx, ag, res, stF, h => by
    simp only [extendNode] at h
    rcases hA : st.ns.assign oid with ⟨id, ns1⟩
    rw [hA] at h
    simp only [] at h
    rcases hD : nmDeclareNode st.nm ag id idx with ⟨nm1, c⟩
    rw [hD] at h
    simp only [] at h
    cases c with
    | some e => exact absurd h (by simp)
    | none =>
      simp only [] at h
      rcases hT : Namespace.assignTypes ns1 tys with ⟨tys2, ns2⟩
      rw [hT] at h
      simp only [] at h
      cases hG : graphStep ⟨ns2, modifyRecord nm1 ag id (setTypesRec tys2)⟩ gr id ag with
      | error e =>
        rw [hG] at h
        exact absurd h (by simp)
      | ok st3 =>
        rw [hG] at h
        simp only [] at h
        cases hI : includedStep st3 inc ag with
        | error e =>
          rw [hI] at h
          exact absurd h (by simp)
        | ok st4 =>
          rw [hI] at h
          simp only [] at h
          cases hP : extendPropList st4 ps id ag with
          | error e =>
            rw [hP] at h
            exact absurd h (by simp)
          | ok st5 =>
            rw [hP] at h
            simp only [] at h
            cases hV : extendRevList st5 rv id ag with
            | error e =>
              rw [hV] at h
              exact absurd h (by simp)
            | ok st6 =>
              rw [hV] at h
              simp only [] at h
              cases h
              have s1 : StLe st.nm nm1 := by
                have := StLe_nmDeclareNode st.nm ag id idx
                rwa [hD] at this
              have s2 : StLe nm1 (modifyRecord nm1 ag id (setTypesRec tys2)) :=
                StLe_setTypesRec nm1 ag id tys2
              have s3 := graphStep_le ⟨ns2, modifyRecord nm1 ag id (setTypesRec tys2)⟩
                gr id ag st3 hG
              have s4 := includedStep_le st3 inc ag st4 hI
              have s5 := extendPropList_le st4 ps id ag st5 hP
              have s6 := extendRevList_le st5 rv id ag _ hV
              exact StLe_trans s1 (StLe_trans s2 (StLe_trans s3
                (StLe_trans s4 (StLe_trans s5 s6))))

termination_by st n idx ag res stF h => sizeOf n

theorem graphStep_le : ∀ (st : St) (gr : GraphContent) (id : String)
    (ag : Option String) (stF : St),
    graphStep st gr id ag = .ok stF → StLe st.nm stF.nm
  | st, .none, id, ag, stF, h => by
    simp only [graphStep] at h
    cases h
    exact StLe_refl st.nm
  | st, .some content, id, ag, stF, h => by
    simp only [graphStep] at h
    cases hG : extendGraphList ⟨st.ns, st.nm.declareGraph id⟩ content id .nil with
    | error e =>
      rw [hG] at h
      exact absurd h (by simp)
    | ok p =>
      obtain ⟨fl, st3⟩ := p
      rw [hG] at h
      simp only [] at h
      cases h
      have s1 : StLe st.nm (st.nm.declareGraph id) := StLe_declareGraph st.nm id
      have s2 := extendGraphList_le ⟨st.ns, st.nm.declareGraph id⟩ content id .nil fl st3 hG
      have s3 : StLe st3.nm (modifyRecord st3.nm ag id (graphUnionRec fl)) :=
        StLe_graphUnionRec st3.nm ag id fl
      exact StLe_trans s1 (StLe_trans s2 s3)

termination_by st gr id ag stF h => sizeOf gr

theorem extendGraphList_le : ∀ (st : St) (items : ObjList) (gid : String)
    (acc : ObjList) (res : ObjList) (stF : St),
    extendGraphList st items gid acc = .ok (res, stF) → StLe st.nm stF.nm
  | st, .nil, gid, acc, res, stF, h => by
    simp only [extendGraphList] at h
    cases h
    exact StLe_refl st.nm
  | st, .cons o rest, gid, acc, res, stF, h => by
    simp only [extendGraphList] at h
    cases hO : extendIxObj st o (Option.some gid) with
    | error e =>
      rw [hO] at h
      exact absurd h (by simp)
    | ok p =>
      obtain ⟨fo, st1⟩ := p
      rw [hO] at h
      simp only [] at h
      exact StLe_trans (extendIxObj_le st o (Option.some gid) fo st1 hO)
        (extendGraphList_le st1 rest gid (objListInsertNoDup acc fo) res stF h)

termination_by st items gid acc res stF h => sizeOf items

theorem includedStep_le : ∀ (st : St) (inc : IncludedContent)
    (ag : Option String) (stF : St),
    includedStep st inc ag = .ok stF → StLe st.nm stF.nm
  | st, .none, ag, stF, h => by
    simp only [includedStep] at h
    cases h
    exact StLe_refl st.nm
  | st, .some content, ag, stF, h => by
    simp only [includedStep] at h
    exact extendIncludedList_le st content ag stF h

termination_by st inc ag stF h => sizeOf inc

theorem extendIncludedList_le : ∀ (st : St) (items : NodeList)
    (ag : Option String) (stF : St),
    extendIncludedList st items ag = .ok stF → StLe st.nm stF.nm
  | st, .nil, ag, stF, h => by
    simp only [extendIncludedList] at h
    cases h
    exact StLe_refl st.nm
  | st, .cons (.mk inner idx2) rest, ag, stF, h => by
    simp only [extendIncludedList] at h
    cases hN : extendNode st inner idx2 ag with
    | error e =>
      rw [hN] at h
      exact absurd h (by simp)
    | ok p =>
      obtain ⟨fn, st1⟩ := p
      rw [hN] at h
      simp only [] at h
      exact StLe_trans (extendNode_le st inner idx2 ag fn st1 hN)
        (extendIncludedList_le st1 rest ag stF h)

termination_by st items ag stF h => sizeOf items

theorem extendPropList_le : ∀ (st : St) (props : PropList) (selfId : String)
    (ag : Option String) (stF : St),
    extendPropList st props selfId ag = .ok stF → StLe st.nm stF.nm
  | st, .nil, selfId, ag, stF, h => by
    simp only [extendPropList] at h
    cases h
    exact StLe_refl st.nm
  | st, .cons p vs rest, selfId, ag, stF, h => by
    simp only [extendPropList] at h
    cases hO : extendObjList st vs ag with
    | error e =>
      rw [hO] at h
      exact absurd h (by simp)
    | ok q =>
      obtain ⟨fvs, st1⟩ := q
      rw [hO] at h
      simp only [] at h
      have s1 := extendObjList_le st vs ag fvs st1 hO
      have s2 : StLe st1.nm (modifyRecord st1.nm ag selfId (propsInsertAllRec p fvs)) :=
        StLe_propsInsertAllRec st1.nm ag selfId p fvs
      exact StLe_trans s1 (StLe_trans s2
        (extendPropList_le ⟨st1.ns, modifyRecord st1.nm ag selfId (propsInsertAllRec p fvs)⟩
          rest selfId ag stF h))

termination_by st props selfId ag stF h => sizeOf props

theorem extendRevList_le : ∀ (st : St) (rev : RevList) (selfId : String)
    (ag : Option String) (stF : St),
    extendRevList st rev selfId ag = .ok stF → StLe st.nm stF.nm
  | st, .nil, selfId, ag, stF, h => by
    simp only [extendRevList] at h
    cases h
    exact StLe_refl st.nm
  | st, .cons p subs rest, selfId, ag, stF, h => by
    simp only [extendRevList] at h
    cases hS : extendSubjList st p subs selfId ag with
    | error e =>
      rw [hS] at h
      exact absurd h (by simp)
    | ok st1 =>
      rw [hS] at h
      simp only [] at h
      exact StLe_trans (extendSubjList_le st p subs selfId ag st1 hS)
        (extendRevList_le st1 rest selfId ag stF h)

termination_by st rev selfId ag stF h => sizeOf rev

theorem extendSubjList_le : ∀ (st : St) (p : String) (subjects : NodeList)
    (selfId : String) (ag : Option String) (stF : St),
    extendSubjList st p subjects selfId ag = .ok stF → StLe st.nm stF.nm
  | st, p, .nil, selfId, ag, stF, h => by
    simp only [extendSubjList] at h
    cases h
    exact StLe_refl st.nm
  | st, p, .cons (.mk inner idx2) rest, selfId, ag, stF, h => by
    simp only [extendSubjList] at h
    cases hN : extendNode st inner idx2 ag with
    | error e =>
      rw [hN] at h
      exact absurd h (by simp)
    | ok q =>
      obtain ⟨fn, st1⟩ := q
      rw [hN] at h
      simp only [] at h
      cases hid : fn.inner.id with
      | some sid =>
        rw [hid] at h
        simp only [] at h
        have s1 := extendNode_le st inner idx2 ag fn st1 hN
        have s2 : StLe st1.nm (modifyRecord st1.nm ag sid
            (propsInsertOneRec p (IxObj.mk (Obj.node (Node0.withId selfId)) Option.none))) :=
          StLe_propsInsertOneRec st1.nm ag sid p _
        exact StLe_trans s1 (StLe_trans s2
          (extendSubjList_le
            ⟨st1.ns, modifyRecord st1.nm ag sid
              (propsInsertOneRec p (IxObj.mk (Obj.node (Node0.withId selfId)) Option.none))⟩
            p rest selfId ag stF h))
      | none =>
        rw [hid] at h
        simp only [] at h
        exact StLe_trans (extendNode_le st inner idx2 ag fn st1 hN)
          (extendSubjList_le st1 p rest selfId ag stF h)

termination_by st p subjects selfId ag stF h => sizeOf subjects

end

end JsonLd

namespace JsonLd

/-- Whether the reverse-property map holds an entry binding exactly the
subject sequence `subs` under property `p`. -/
def revEntryMemB : RevList → String → NodeList → Bool
  | .nil, _, _ => false
  | .cons q ws rest, p, subs =>
    (q == p && nodeListBeq ws subs) || revEntryMemB rest p subs

theorem nmHasEdge_insertOne_self (m : NodeMap) (ag : Option String)
    (i p : String) (v : IxObj) (hex : recExistsB m ag i = true) :
    nmHasEdge (modifyRecord m ag i (propsInsertOneRec p v)) ag i p v = true := by
  cases hg : m.graph ag with
  | none =>
    rw [recExistsB, getRecord_of_noGraph m ag i hg] at hex
    simp at hex
  | some g =>
    rw [recExistsB, getRecord_of_graph m ag g i hg] at hex
    cases hr : gFind? g i with
    | none =>
      rw [hr] at hex
      simp at hex
    | some r =>
      have hg' : (modifyRecord m ag i (propsInsertOneRec p v)).graph ag
          = Option.some (gModify g i (propsInsertOneRec p v)) := by
        rw [modifyRecord, graph_modifyGraph]
        simp [hg]
      rw [nmHasEdge, getRecord_of_graph _ ag _ i hg', gFind?_gModify]
      simp [hr, propsInsertOneRec_props, propInsertUnique_self]

theorem extendNode_run (st : St) (n : Node0) (idx : Option String)
    (ag : Option String) (res : IxNode) (stF : St)
    (h : extendNode st n idx ag = .ok (res, stF)) :
    res = IxNode.mk (Node0.withId ((st.ns.assign n.id).1)) Option.none
    ∧ (graphExistsB st.nm ag = true →
        recExistsB stF.nm ag ((st.ns.assign n.id).1) = true) := by
  cases n with
  | mk oid tys gr inc ps rv =>
    simp only [extendNode] at h
    rcases hA : st.ns.assign oid with ⟨id, ns1⟩
    rw [hA] at h
    simp only [] at h
    rcases hD : nmDeclareNode st.nm ag id idx with ⟨nm1, c⟩
    rw [hD] at h
    simp only [] at h
    cases c with
    | some e => exact absurd h (by simp)
    | none =>
      simp only [] at h
      rcases hT : Namespace.assignTypes ns1 tys with ⟨tys2, ns2⟩
      rw [hT] at h
      simp only [] at h
      cases hG : graphStep ⟨ns2, modifyRecord nm1 ag id (setTypesRec tys2)⟩ gr id ag with
      | error e =>
        rw [hG] at h
        exact absurd h (by simp)
      | ok st3 =>
        rw [hG] at h
        simp only [] at h
        cases hI : includedStep st3 inc ag with
        | error e =>
          rw [hI] at h
          exact absurd h (by simp)
        | ok st4 =>
          rw [hI] at h
          simp only [] at h
          cases hP : extendPropList st4 ps id ag with
          | error e =>
            rw [hP] at h
            exact absurd h (by simp)
          | ok st5 =>
            rw [hP] at h
            simp only [] at h
            cases hV : extendRevList st5 rv id ag with
            | error e =>
              rw [hV] at h
              exact absurd h (by simp)
            | ok st6 =>
              rw [hV] at h
              simp only [] at h
              cases h
              have hid : (st.ns.assign (Node0.mk oid tys gr inc ps rv).id).1 = id := by
                simp only [Node0.id]
                rw [hA]
              constructor
              · rw [hid]
              · intro hex
                rw [hid]
                have h1 : recExistsB nm1 ag id = true := by
                  have := nmDeclareNode_declares st.nm ag id idx hex
                  rwa [hD] at this
                have s2 : StLe nm1 (modifyRecord nm1 ag id (setTypesRec tys2)) :=
                  StLe_setTypesRec nm1 ag id tys2
                have s3 := graphStep_le ⟨ns2, modifyRecord nm1 ag id (setTypesRec tys2)⟩
                  gr id ag st3 hG
                have s4 := includedStep_le st3 inc ag st4 hI
                have s5 := extendPropList_le st4 ps id ag st5 hP
                have s6 := extendRevList_le st5 rv id ag _ hV
                exact s6.2.1 ag id (s5.2.1 ag id (s4.2.1 ag id
                  (s3.2.1 ag id (s2.2.1 ag id h1))))

end JsonLd

namespace JsonLd

theorem extendSubjList_ensures :
    ∀ (subs : NodeList) (st : St) (p selfId : String) (ag : Option String)
      (stF : St) (B : IxNode),
      graphExistsB st.nm ag = true →
      nodeListMemB subs B = true →
      extendSubjList st p subs selfId ag = .ok stF →
      ∃ bid, (∀ b, B.inner.id = Option.some b → bid = b)
        ∧ nmHasEdge stF.nm ag bid p
            (IxObj.mk (Obj.node (Node0.withId selfId)) Option.none) = true
  | .nil, st, p, selfId, ag, stF, B, hex, hmem, h => by
    simp [nodeListMemB] at hmem
  | .cons (.mk inner idx2) rest, st, p, selfId, ag, stF, B, hex, hmem, h => by
    simp only [extendSubjList] at h
    cases hN : extendNode st inner idx2 ag with
    | error e =>
      rw [hN] at h
      exact absurd h (by simp)
    | ok q =>
      obtain ⟨fn, st1⟩ := q
      rw [hN] at h
      simp only [] at h
      have run := extendNode_run st inner idx2 ag fn st1 hN
      rw [run.1] at h
      simp only [IxNode.inner, Node0.withId, Node0.id] at h
      have hle1 := extendNode_le st inner idx2 ag fn st1 hN
      rw [nodeListMemB, Bool.or_eq_true] at hmem
      rcases hmem with hbe | hmem
      · have hB : B = IxNode.mk inner idx2 := ((inodeBeq_iff _ B).mp hbe).symm
        subst hB
        refine ⟨(st.ns.assign inner.id).1, ?_, ?_⟩
        · intro b hb
          rw [IxNode.inner] at hb
          rw [hb]
          simp [Namespace.assign]
        · have hrec : recExistsB st1.nm ag ((st.ns.assign inner.id).1) = true :=
            run.2 hex
          have hedge := nmHasEdge_insertOne_self st1.nm ag
            ((st.ns.assign inner.id).1) p
            (IxObj.mk (Obj.node (Node0.withId selfId)) Option.none) hrec
          have hle2 := extendSubjList_le _ p rest selfId ag stF h
          exact hle2.2.2.1 ag _ p _ hedge
      · have hex1 : graphExistsB st1.nm ag = true := hle1.1 ag hex
        have hexN : graphExistsB (modifyRecord st1.nm ag ((st.ns.assign inner.id).1)
            (propsInsertOneRec p
              (IxObj.mk (Obj.node (Node0.withId selfId)) Option.none))) ag = true :=
          (StLe_propsInsertOneRec st1.nm ag _ p _).1 ag hex1
        exact extendSubjList_ensures rest
          ⟨st1.ns, modifyRecord st1.nm ag ((st.ns.assign inner.id).1)
            (propsInsertOneRec p
              (IxObj.mk (Obj.node (Node0.withId selfId)) Option.none))⟩
          p selfId ag stF B hexN hmem h
termination_by subs => sizeOf subs

end JsonLd

namespace JsonLd

theorem extendRevList_ensures :
    ∀ (rv : RevList) (st : St) (selfId : String) (ag : Option String)
      (stF : St) (P : String) (subs : NodeList) (B : IxNode),
      graphExistsB st.nm ag = true →
      revEntryMemB rv P subs = true →
      nodeListMemB subs B = true →
      extendRevList st rv selfId ag = .ok stF →
      ∃ bid, (∀ b, B.inner.id = Option.some b → bid = b)
        ∧ nmHasEdge stF.nm ag bid P
            (IxObj.mk (Obj.node (Node0.withId selfId)) Option.none) = true
  | .nil, st, selfId, ag, stF, P, subs, B, hex, hent, hmem, h => by
    simp [revEntryMemB] at hent
  | .cons q ws rest, st, selfId, ag, stF, P, subs, B, hex, hent, hmem, h => by
    simp only [extendRevList] at h
    cases hS : extendSubjList st q ws selfId ag with
    | error e =>
      rw [hS] at h
      exact absurd h (by simp)
    | ok st1 =>
      rw [hS] at h
      simp only [] at h
      rw [revEntryMemB, Bool.or_eq_true, Bool.and_eq_true] at hent
      rcases hent with ⟨hq, hws⟩ | hent
      · have hq' : q = P := by simpa using hq
        have hws' : ws = subs := (nodeListBeq_iff ws subs).mp hws
        subst hq'
        subst hws'
        obtain ⟨bid, hpin, hedge⟩ :=
          extendSubjList_ensures ws st q selfId ag st1 B hex hmem hS
        have hle2 := extendRevList_le st1 rest selfId ag stF h
        exact ⟨bid, hpin, hle2.2.2.1 ag bid q _ hedge⟩
      · have hex1 : graphExistsB st1.nm ag = true :=
          (extendSubjList_le st q ws selfId ag st1 hS).1 ag hex
        exact extendRevList_ensures rest st1 selfId ag stF P subs B hex1 hent hmem h
termination_by rv => sizeOf rv

end JsonLd

namespace JsonLd

theorem revIsNil_eq (rv : RevList) (h : revIsNil rv = true) : rv = RevList.nil := by
  cases rv with
  | nil => rfl
  | cons p ws rest => simp [revIsNil] at h

theorem getRecord_revFree (m : NodeMap) (ag : Option String) (i : String)
    (r : IxNode) (hfree : revFreeNM m = true)
    (hr : getRecord m ag i = Option.some r) : r.inner.rev = RevList.nil := by
  rw [revFreeNM, Bool.and_eq_true] at hfree
  cases ag with
  | none =>
    rw [getRecord_of_graph m Option.none m.default_graph i rfl] at hr
    exact revIsNil_eq _ (gFind?_all m.default_graph _ hfree.1 i r hr)
  | some j =>
    cases hg : glFind? m.graphs j with
    | none =>
      rw [getRecord_of_noGraph m (Option.some j) i hg] at hr
      exact Option.noConfusion hr
    | some g =>
      rw [getRecord_of_graph m (Option.some j) g i hg] at hr
      have hgfree : gRevFree g = true := glFind?_all m.graphs _ hfree.2 j g hg
      exact revIsNil_eq _ (gFind?_all g _ hgfree i r hr)

/-- C2: for every input node that declares a reverse property `P` with
a subject node `B`, a successful traversal installs a forward edge
under `P` from `B`'s record in the active graph to a bare reference
to the current node's canonical id, and the current node's own record
(like every record the traversal produces) carries no
reverse-property entry at all — in particular none for `P`. -/
theorem reverse_property_conversion (st : St) (A : Node0) (idx : Option String)
    (ag : Option String) (P : String) (subs : NodeList) (B : IxNode)
    (flatA : IxNode) (stF : St)
    (hgr : graphExistsB st.nm ag = true)
    (hfree : revFreeNM st.nm = true)
    (hent : revEntryMemB A.rev P subs = true)
    (hmem : nodeListMemB subs B = true)
    (h : extendNode st A idx ag = .ok (flatA, stF)) :
    ∃ aid bid,
      flatA = IxNode.mk (Node0.withId aid) Option.none
      ∧ (∀ a, A.id = Option.some a → aid = a)
      ∧ (∀ b, B.inner.id = Option.some b → bid = b)
      ∧ nmHasEdge stF.nm ag bid P
          (IxObj.mk (Obj.node (Node0.withId aid)) Option.none) = true
      ∧ ∃ recA, getRecord stF.nm ag aid = Option.some recA
          ∧ recA.inner.rev = RevList.nil := by
  cases A with
  | mk oid tys gr inc ps rv =>
    simp only [Node0.rev] at hent
    simp only [Node0.id]
    simp only [extendNode] at h
    rcases hA : st.ns.assign oid with ⟨id, ns1⟩
    rw [hA] at h
    simp only [] at h
    rcases hD : nmDeclareNode st.nm ag id idx with ⟨nm1, c⟩
    rw [hD] at h
    simp only [] at h
    cases c with
    | some e => exact absurd h (by simp)
    | none =>
      simp only [] at h
      rcases hT : Namespace.assignTypes ns1 tys with ⟨tys2, ns2⟩
      rw [hT] at h
      simp only [] at h
      cases hG : graphStep ⟨ns2, modifyRecord nm1 ag id (setTypesRec tys2)⟩ gr id ag with
      | error e =>
        rw [hG] at h
        exact absurd h (by simp)
      | ok st3 =>
        rw [hG] at h
        simp only [] at h
        cases hI : includedStep st3 inc ag with
        | error e =>
          rw [hI] at h
          exact absurd h (by simp)
        | ok st4 =>
          rw [hI] at h
          simp only [] at h
          cases hP : extendPropList st4 ps id ag with
          | error e =>
            rw [hP] at h
            exact absurd h (by simp)
          | ok st5 =>
            rw [hP] at h
            simp only [] at h
            cases hV : extendRevList st5 rv id ag with
            | error e =>
              rw [hV] at h
              exact absurd h (by simp)
            | ok st6 =>
              rw [hV] at h
              simp only [] at h
              cases h
              have s1 : StLe st.nm nm1 := by
                have := StLe_nmDeclareNode st.nm ag id idx
                rwa [hD] at this
              have s2 : StLe nm1 (modifyRecord nm1 ag id (setTypesRec tys2)) :=
                StLe_setTypesRec nm1 ag id tys2
              have s3 := graphStep_le ⟨ns2, modifyRecord nm1 ag id (setTypesRec tys2)⟩
                gr id ag st3 hG
              have s4 := includedStep_le st3 inc ag st4 hI
              have s5 := extendPropList_le st4 ps id ag st5 hP
              have s6 := extendRevList_le st5 rv id ag _ hV
              have hex1 : graphExistsB nm1 ag = true := s1.1 ag hgr
              have hex5 : graphExistsB st5.nm ag = true :=
                s5.1 ag (s4.1 ag (s3.1 ag (s2.1 ag hex1)))
              obtain ⟨bid, hpin, hedge⟩ :=
                extendRevList_ensures rv st5 id ag _ P subs B hex5 hent hmem hV
              have hrec1 : recExistsB nm1 ag id = true := by
                have := nmDeclareNode_declares st.nm ag id idx hgr
                rwa [hD] at this
              have hrec6 : recExistsB stF.nm ag id = true :=
                s6.2.1 ag id (s5.2.1 ag id (s4.2.1 ag id
                  (s3.2.1 ag id (s2.2.1 ag id hrec1))))
              have hfree6 : revFreeNM stF.nm = true :=
                s6.2.2.2 (s5.2.2.2 (s4.2.2.2 (s3.2.2.2 (s2.2.2.2 (s1.2.2.2 hfree)))))
              rw [recExistsB] at hrec6
              cases hrA : getRecord stF.nm ag id with
              | none =>
                rw [hrA] at hrec6
                simp at hrec6
              | some recA =>
                refine ⟨id, bid, rfl, ?_, hpin, hedge, recA, hrA, ?_⟩
                · intro a ha
                  rw [ha] at hA
                  simp [Namespace.assign] at hA
                  exact hA.1.symm
                · exact getRecord_revFree stF.nm ag id recA hfree6 hrA
end JsonLd

namespace JsonLd

/-- The subject node `b` of the demonstration reverse edge. -/
def revDemoB : IxNode :=
  IxNode.mk (Node0.mk (Option.some "b") [] .none .none .nil .nil) Option.none

/-- A node `a` declaring the reverse property `knows` with subject
`b`. -/
def revDemoA : Node0 :=
  Node0.mk (Option.some "a") [] .none .none .nil
    (.cons "knows" (.cons revDemoB .nil) .nil)

/-- The state reached after extending `revDemoA` from a fresh state:
record `b` carries the forward edge `knows → a`, record `a` is bare. -/
def revDemoStF : St :=
  ⟨⟨0⟩, ⟨[],
    [ ("b", IxNode.mk (Node0.mk (Option.some "b") [] .none .none
        (.cons "knows"
          (.cons (IxObj.mk (Obj.node (Node0.withId "a")) Option.none) .nil) .nil)
        .nil) Option.none),
      ("a", IxNode.mk (Node0.mk (Option.some "a") [] .none .none .nil .nil)
        Option.none) ]⟩⟩

/-- Witness for C2: running the traversal on the concrete reverse-edge
node installs `knows → a` on `b`'s record and leaves `a`'s record
without reverse properties. -/
theorem reverse_property_conversion_witness :
    ∃ aid bid,
      IxNode.mk (Node0.withId "a") Option.none
          = IxNode.mk (Node0.withId aid) Option.none
      ∧ (∀ a, revDemoA.id = Option.some a → aid = a)
      ∧ (∀ b, revDemoB.inner.id = Option.some b → bid = b)
      ∧ nmHasEdge revDemoStF.nm Option.none bid "knows"
          (IxObj.mk (Obj.node (Node0.withId aid)) Option.none) = true
      ∧ ∃ recA, getRecord revDemoStF.nm Option.none aid = Option.some recA
          ∧ recA.inner.rev = RevList.nil :=
  reverse_property_conversion ⟨Namespace.init, NodeMap.empty⟩ revDemoA
    Option.none Option.none "knows" (.cons revDemoB .nil) revDemoB
    (IxNode.mk (Node0.withId "a") Option.none) revDemoStF
    (by decide) (by decide) (by decide) (by decide) (by decide)

end JsonLd
